import Mathlib

/-!
# file-copy: verification of the queue store, workers and scheduler

Shallow embedding of the core of the file-copy service:
`src/queue/database.js` (queue store and stats ledger),
`src/workers/index.js` and `src/workers/file-thread.js` (copy workers),
and the per-bucket scheduler loop (`WorkerPool`).

Rows of the `file_queue` table are modelled as a list of `FileRow`
kept in ascending `id` order (SQLite assigns AUTOINCREMENT ids, and all
queries of interest read `ORDER BY id ASC`); timestamps are `Nat` ticks
standing for `datetime('now','localtime')` at the moment an operation runs.
The in-memory stats ledger (`_globalStats` / `_bucketStats`) is modelled
by `Stats` and an association list keyed by bucket id, exactly mirroring
the JavaScript object keyed by bucket id.
-/

namespace FileCopy

/-- Row status, the `status` column of `file_queue`. -/
inductive Status where
  | pending
  | in_progress
  | completed
  | error
  | conflict
deriving DecidableEq, Repr

open Status

instance : Fintype Status :=
  ⟨⟨{Status.pending, Status.in_progress, Status.completed, Status.error, Status.conflict}, by decide⟩,
   by intro x; cases x <;> decide⟩

/-- One row of the `file_queue` table. -/
structure FileRow where
  id : Nat
  bucket_id : Nat
  source_path : String
  source_folder : String
  relative_path : String
  destination_path : String
  file_size : Nat
  source_hash : Option String
  destination_hash : Option String
  status : Status
  error_message : Option String
  created_at : Nat
  updated_at : Nat
  started_at : Option Nat
  completed_at : Option Nat
  worker_id : Option Nat
deriving DecidableEq, Repr

/-- One `{ count, totalSize }` cell of the stats ledger.  JavaScript numbers
are modelled as `Int` since the ledger is maintained by deltas. -/
structure Entry where
  count : Int
  totalSize : Int
deriving DecidableEq, Repr

/-- The per-scope stats ledger object, one `Entry` per status
(`_emptyStats()` shape in `database.js`). -/
structure Stats where
  pending : Entry
  in_progress : Entry
  completed : Entry
  error : Entry
  conflict : Entry
deriving DecidableEq, Repr

def emptyEntry : Entry := ⟨0, 0⟩

def emptyStats : Stats := ⟨emptyEntry, emptyEntry, emptyEntry, emptyEntry, emptyEntry⟩

def Stats.get (s : Stats) : Status → Entry
  | Status.pending => s.pending
  | Status.in_progress => s.in_progress
  | Status.completed => s.completed
  | Status.error => s.error
  | Status.conflict => s.conflict

/-- Add `(dc, ds)` to the cell of status `st` (body of `_adjustStats` for
one scope). -/
def Stats.adjust (s : Stats) (st : Status) (dc ds : Int) : Stats :=
  match st with
  | Status.pending => { s with pending := ⟨s.pending.count + dc, s.pending.totalSize + ds⟩ }
  | Status.in_progress => { s with in_progress := ⟨s.in_progress.count + dc, s.in_progress.totalSize + ds⟩ }
  | Status.completed => { s with completed := ⟨s.completed.count + dc, s.completed.totalSize + ds⟩ }
  | Status.error => { s with error := ⟨s.error.count + dc, s.error.totalSize + ds⟩ }
  | Status.conflict => { s with conflict := ⟨s.conflict.count + dc, s.conflict.totalSize + ds⟩ }

/-- The whole queue-store state: `file_queue` rows, the `buckets` table
(only ids matter for the ledger), and the in-memory ledger. -/
structure DB where
  rows : List FileRow
  buckets : List Nat
  globalStats : Stats
  bucketStats : List (Nat × Stats)
deriving DecidableEq, Repr

def lookupStats (l : List (Nat × Stats)) (b : Nat) : Option Stats :=
  match l.find? (fun p => p.1 = b) with
  | some p => some p.2
  | none => none

/-- `_adjustStats(bucketId, status, countDelta, sizeDelta)`: the global
scope is always adjusted; the bucket scope only when a bucket id is given
and its ledger entry exists. -/
def adjustStats (db : DB) (bucketId : Option Nat) (st : Status) (dc ds : Int) : DB :=
  let g := db.globalStats.adjust st dc ds
  match bucketId with
  | none => { db with globalStats := g }
  | some b =>
      { db with
        globalStats := g,
        bucketStats := db.bucketStats.map (fun p => if p.1 = b then (p.1, p.2.adjust st dc ds) else p) }

/-- `_transitionStats(bucketId, oldStatus, newStatus, fileSize)`. -/
def transitionStats (db : DB) (bucketId : Nat) (oldStatus newStatus : Status) (fileSize : Nat) : DB :=
  adjustStats (adjustStats db (some bucketId) oldStatus (-1) (-(fileSize : Int)))
    (some bucketId) newStatus 1 (fileSize : Int)

/-- Row matches a stats scope: `none` is the global scope, `some b`
restricts to `bucket_id = b`. -/
def inScope (b : Option Nat) (r : FileRow) : Bool :=
  match b with
  | none => true
  | some x => r.bucket_id = x

/-- Indicator of a `(scope, status)` cell for one row, as a count. -/
def ind (b : Option Nat) (st : Status) (r : FileRow) : Int :=
  if inScope b r && r.status = st then 1 else 0

/-- Indicator weighted by file size. -/
def indSize (b : Option Nat) (st : Status) (r : FileRow) : Int :=
  if inScope b r && r.status = st then (r.file_size : Int) else 0

/-- `COUNT(*)` over rows of a `(scope, status)` cell: the ground truth the
GROUP BY queries (`getStatsFromDB`, `getStatsByBucketFromDB`) compute. -/
def truthCount (rows : List FileRow) (b : Option Nat) (st : Status) : Int :=
  (rows.map (ind b st)).sum

/-- `COALESCE(SUM(file_size), 0)` over rows of a `(scope, status)` cell. -/
def truthSize (rows : List FileRow) (b : Option Nat) (st : Status) : Int :=
  (rows.map (indSize b st)).sum

/-- Ground-truth `Stats` object for one scope, as `_loadStatsCache` builds it. -/
def truthStats (rows : List FileRow) (b : Option Nat) : Stats :=
  ⟨⟨truthCount rows b Status.pending, truthSize rows b Status.pending⟩,
   ⟨truthCount rows b Status.in_progress, truthSize rows b Status.in_progress⟩,
   ⟨truthCount rows b Status.completed, truthSize rows b Status.completed⟩,
   ⟨truthCount rows b Status.error, truthSize rows b Status.error⟩,
   ⟨truthCount rows b Status.conflict, truthSize rows b Status.conflict⟩⟩

/-- `_loadStatsCache` (also `_rebuildStatsCache`): reload the global ledger
from a GROUP BY over `file_queue`, and one ledger per bucket of the
`buckets` table. -/
def loadStatsCache (db : DB) : DB :=
  { db with
    globalStats := truthStats db.rows none,
    bucketStats := db.buckets.map (fun b => (b, truthStats db.rows (some b))) }

/-- The SET clause of `_recoverCrash`: back to pending, worker id and
start time cleared, updated-at bumped. -/
def recoverRow (now : Nat) (r : FileRow) : FileRow :=
  { r with status := Status.pending, worker_id := none, started_at := none, updated_at := now }

/-- `_recoverCrash`: `UPDATE file_queue SET status='pending', worker_id=NULL,
started_at=NULL, updated_at=now WHERE status='in_progress'`. -/
def recoverCrash (now : Nat) (rows : List FileRow) : List FileRow :=
  rows.map (fun r => if r.status = Status.in_progress then recoverRow now r else r)

/-! ## Insert-many (`insertFile` / `_addFilesTransaction`) -/

/-- The fields the `insertFile` prepared statement binds; every other
column takes its schema default (hashes NULL, timestamps now, ...). -/
structure NewFile where
  bucketId : Nat
  sourcePath : String
  sourceFolder : String
  relativePath : String
  destinationPath : String
  fileSize : Nat
  status : Status
  errorMessage : Option String
deriving DecidableEq, Repr

/-- AUTOINCREMENT: the next id is larger than every id ever used. -/
def nextId (rows : List FileRow) : Nat :=
  rows.foldr (fun r m => max (r.id + 1) m) 0

/-- The `UNIQUE(source_path, destination_path, bucket_id)` constraint:
does a row with this triple already exist? -/
def tripleExists (rows : List FileRow) (f : NewFile) : Bool :=
  rows.any (fun r =>
    r.source_path = f.sourcePath && r.destination_path = f.destinationPath
      && r.bucket_id = f.bucketId)

def rowOfNewFile (i now : Nat) (f : NewFile) : FileRow :=
  { id := i, bucket_id := f.bucketId, source_path := f.sourcePath,
    source_folder := f.sourceFolder, relative_path := f.relativePath,
    destination_path := f.destinationPath, file_size := f.fileSize,
    source_hash := none, destination_hash := none, status := f.status,
    error_message := f.errorMessage, created_at := now, updated_at := now,
    started_at := none, completed_at := none, worker_id := none }

/-- One `INSERT OR IGNORE` plus the `changes > 0` ledger adjustment of
`_addFilesTransaction`. -/
def insertFile (now : Nat) (db : DB) (f : NewFile) : DB :=
  if tripleExists db.rows f then db
  else
    let db1 := { db with rows := db.rows ++ [rowOfNewFile (nextId db.rows) now f] }
    adjustStats db1 (some f.bucketId) f.status 1 (f.fileSize : Int)

/-- `_addFilesTransaction(files)`: the sequential insert loop; returns the
state and the count of newly added rows (`added++` on `changes > 0`). -/
def addFilesTransaction (now : Nat) (db : DB) : List NewFile → DB × Nat
  | [] => (db, 0)
  | f :: rest =>
      let res := addFilesTransaction now (insertFile now db f) rest
      (res.1, (if tripleExists db.rows f then 0 else 1) + res.2)

/-! ## Claim (`markInProgress` / `_claimPendingForBucketAndFolderTransaction`) -/

/-- The SET clause of `markInProgress`. -/
def stampRow (workerId now : Nat) (r : FileRow) : FileRow :=
  { r with status := Status.in_progress, worker_id := some workerId,
           started_at := some now, updated_at := now }

/-- `markInProgress` prepared statement: `UPDATE ... SET status='in_progress',
worker_id=@workerId, started_at=now, updated_at=now WHERE id=@id AND
status='pending'`.  Returns the new state and whether `changes > 0`. -/
def markInProgress (db : DB) (i workerId now : Nat) : DB × Bool :=
  let changed := db.rows.any (fun r => r.id = i && r.status = Status.pending)
  let rows1 := db.rows.map (fun r =>
    if r.id = i && r.status = Status.pending then stampRow workerId now r else r)
  ({ db with rows := rows1 }, changed)

/-- The snapshot row as the claim transaction returns it: only `status` and
`worker_id` of the selected object are overwritten in the JavaScript. -/
def claimedView (workerId : Nat) (r : FileRow) : FileRow :=
  { r with status := Status.in_progress, worker_id := some workerId }

/-- The per-row loop of the claim transactions over the selected snapshot
rows: attempt the guarded update; on success adjust the ledger (pending to
in_progress with the snapshot's bucket and size) and emit the row; on
failure skip silently. -/
def claimLoop (workerId now : Nat) (db : DB) : List FileRow → DB × List FileRow
  | [] => (db, [])
  | row :: rest =>
      let res := markInProgress db row.id workerId now
      if res.2 then
        let db2 := transitionStats res.1 row.bucket_id Status.pending Status.in_progress row.file_size
        let res2 := claimLoop workerId now db2 rest
        (res2.1, claimedView workerId row :: res2.2)
      else
        let res2 := claimLoop workerId now res.1 rest
        (res2.1, res2.2)

/-- `SELECT * FROM file_queue WHERE status='pending' AND bucket_id=? AND
source_folder=? ORDER BY id ASC LIMIT ?` — rows are kept in ascending id
order, so the query is a filter followed by `take`. -/
def selectPendingForBucketAndFolder (rows : List FileRow) (bucketId : Nat) (folder : String) (limit : Nat) : List FileRow :=
  (rows.filter (fun r =>
    r.status = Status.pending && r.bucket_id = bucketId && r.source_folder = folder)).take limit

/-- `_claimPendingForBucketAndFolderTransaction(bucketId, sourceFolder,
limit, workerId)`. -/
def claimPendingForBucketAndFolderTransaction (db : DB) (bucketId : Nat) (folder : String) (limit workerId now : Nat) : DB × List FileRow :=
  claimLoop workerId now db (selectPendingForBucketAndFolder db.rows bucketId folder limit)

/-! ## Commit (`updateStatus`) -/

/-- The optional `extras` of `updateStatus`: `none` models a missing /
null extra (`extras.sourceHash || null` etc.). -/
structure Extras where
  sourceHash : Option String
  destinationHash : Option String
  errorMessage : Option String
  workerId : Option Nat
  startedAt : Option Nat
  completedAt : Option String
deriving DecidableEq, Repr

def noExtras : Extras := ⟨none, none, none, none, none, none⟩

/-- `COALESCE(@x, col)`: the supplied value when present, else the stored one. -/
def coalesce {α : Type} (x : Option α) (col : Option α) : Option α :=
  match x with
  | some v => some v
  | none => col

/-- The row update of the `updateStatus` prepared statement.  Note
`completed_at` is set to the database clock (`datetime('now','localtime')`)
whenever a `completedAt` extra is supplied, and kept otherwise. -/
def updateStatusRow (st : Status) (e : Extras) (now : Nat) (r : FileRow) : FileRow :=
  { r with
    status := st,
    source_hash := coalesce e.sourceHash r.source_hash,
    destination_hash := coalesce e.destinationHash r.destination_hash,
    error_message := coalesce e.errorMessage r.error_message,
    worker_id := coalesce e.workerId r.worker_id,
    started_at := coalesce e.startedAt r.started_at,
    completed_at := if e.completedAt.isSome then some now else r.completed_at,
    updated_at := now }

/-- `getFileMeta` prepared statement: id, bucket, status and size of the row. -/
def getFileMeta (rows : List FileRow) (i : Nat) : Option FileRow :=
  rows.find? (fun r => r.id = i)

/-- `FileQueueDB.updateStatus(id, status, extras)`: meta fetch, unguarded
update by id, then ledger transition only when the row existed and its
status actually changed. -/
def updateStatus (db : DB) (i : Nat) (st : Status) (e : Extras) (now : Nat) : DB :=
  let meta := getFileMeta db.rows i
  let changed := db.rows.any (fun r => r.id = i)
  let db1 := { db with rows := db.rows.map (fun r => if r.id = i then updateStatusRow st e now r else r) }
  match meta with
  | some m => if changed && !(m.status = st) then transitionStats db1 m.bucket_id m.status st m.file_size else db1
  | none => db1

/-! ## Conflict resolution and retry -/

inductive Action where
  | overwrite
  | skip
deriving DecidableEq, Repr

/-- `resolveConflictOverwrite` statement: conflict to pending, clearing
worker id, start time and destination hash. -/
def resolveOverwriteRow (now : Nat) (r : FileRow) : FileRow :=
  { r with status := Status.pending, worker_id := none, started_at := none,
           destination_hash := none, updated_at := now }

/-- `resolveConflictSkip` statement: conflict to completed, stamping
`completed_at`; hashes are left untouched. -/
def resolveSkipRow (now : Nat) (r : FileRow) : FileRow :=
  { r with status := Status.completed, completed_at := some now, updated_at := now }

/-- The SET clause a resolution action applies to a conflict row. -/
def resolveActionRow (a : Action) (now : Nat) (r : FileRow) : FileRow :=
  match a with
  | Action.overwrite => resolveOverwriteRow now r
  | Action.skip => resolveSkipRow now r

/-- The status a resolution action moves a conflict row to. -/
def targetStatus : Action → Status
  | Action.overwrite => Status.pending
  | Action.skip => Status.completed

/-- `FileQueueDB.resolveConflict(id, action)` for a valid action: meta
fetch, guarded update `WHERE id = ? AND status = 'conflict'`, then the
ledger transition when `changes > 0`. -/
def resolveConflict (db : DB) (i : Nat) (a : Action) (now : Nat) : DB :=
  let meta := getFileMeta db.rows i
  let changed := db.rows.any (fun r => r.id = i && r.status = Status.conflict)
  let db1 := { db with rows := db.rows.map (fun r =>
    if r.id = i && r.status = Status.conflict then resolveActionRow a now r else r) }
  match meta with
  | some m =>
      if changed then
        transitionStats db1 m.bucket_id Status.conflict (targetStatus a) m.file_size
      else db1
  | none => db1

/-- `Stats` part of the per-bucket loop of `resolveAllConflicts` /
`retryAllErrors`: move the whole `from` cell onto the `to` cell when its
count is positive. -/
def Stats.moveAll (s : Stats) (src dst : Status) : Stats :=
  if 0 < (s.get src).count then
    (s.adjust src (-(s.get src).count) (-(s.get src).totalSize)).adjust dst
      (s.get src).count (s.get src).totalSize
  else s

/-- `FileQueueDB.resolveAllConflicts(action)`: bulk update of every
conflict row, global ledger adjusted by the pre-read SUM, per-bucket
ledgers moved cell-to-cell. -/
def resolveAllConflicts (db : DB) (a : Action) (now : Nat) : DB :=
  let totalSize := truthSize db.rows none Status.conflict
  let changes := truthCount db.rows none Status.conflict
  let db1 := { db with rows := db.rows.map (fun r =>
    if r.status = Status.conflict then resolveActionRow a now r else r) }
  if 0 < changes then
    let db2 := adjustStats db1 none Status.conflict (-changes) (-totalSize)
    let db3 := adjustStats db2 none (targetStatus a) changes totalSize
    { db3 with bucketStats := db3.bucketStats.map (fun p => (p.1, p.2.moveAll Status.conflict (targetStatus a))) }
  else db1

/-- `FileQueueDB.resolveAllConflictsForBucket(bucketId, action)`. -/
def resolveAllConflictsForBucket (db : DB) (bucketId : Nat) (a : Action) (now : Nat) : DB :=
  let totalSize := truthSize db.rows (some bucketId) Status.conflict
  let changes := truthCount db.rows (some bucketId) Status.conflict
  let db1 := { db with rows := db.rows.map (fun r =>
    if r.status = Status.conflict && r.bucket_id = bucketId then resolveActionRow a now r else r) }
  if 0 < changes then
    adjustStats (adjustStats db1 (some bucketId) Status.conflict (-changes) (-totalSize))
      (some bucketId) (targetStatus a) changes totalSize
  else db1

/-- `retryError` statement: error to pending, clearing worker id, start
time and error message. -/
def retryRow (now : Nat) (r : FileRow) : FileRow :=
  { r with status := Status.pending, worker_id := none, started_at := none,
           error_message := none, updated_at := now }

/-- `FileQueueDB.retryError(id)`. -/
def retryError (db : DB) (i now : Nat) : DB :=
  let meta := getFileMeta db.rows i
  let changed := db.rows.any (fun r => r.id = i && r.status = Status.error)
  let db1 := { db with rows := db.rows.map (fun r =>
    if r.id = i && r.status = Status.error then retryRow now r else r) }
  match meta with
  | some m =>
      if changed then transitionStats db1 m.bucket_id Status.error Status.pending m.file_size
      else db1
  | none => db1

/-- `FileQueueDB.retryAllErrors()`. -/
def retryAllErrors (db : DB) (now : Nat) : DB :=
  let totalSize := truthSize db.rows none Status.error
  let changes := truthCount db.rows none Status.error
  let db1 := { db with rows := db.rows.map (fun r =>
    if r.status = Status.error then retryRow now r else r) }
  if 0 < changes then
    let db2 := adjustStats db1 none Status.error (-changes) (-totalSize)
    let db3 := adjustStats db2 none Status.pending changes totalSize
    { db3 with bucketStats := db3.bucketStats.map (fun p => (p.1, p.2.moveAll Status.error Status.pending)) }
  else db1

/-- `FileQueueDB.retryAllErrorsForBucket(bucketId)`. -/
def retryAllErrorsForBucket (db : DB) (bucketId : Nat) (now : Nat) : DB :=
  let totalSize := truthSize db.rows (some bucketId) Status.error
  let changes := truthCount db.rows (some bucketId) Status.error
  let db1 := { db with rows := db.rows.map (fun r =>
    if r.status = Status.error && r.bucket_id = bucketId then retryRow now r else r) }
  if 0 < changes then
    adjustStats (adjustStats db1 (some bucketId) Status.error (-changes) (-totalSize))
      (some bucketId) Status.pending changes totalSize
  else db1

/-- Insert-or-replace of one bucket ledger entry
(`this._bucketStats[bucketId] = value`). -/
def setBucketStats (l : List (Nat × Stats)) (b : Nat) (s : Stats) : List (Nat × Stats) :=
  if (l.map Prod.fst).contains b then l.map (fun p => if p.1 = b then (p.1, s) else p)
  else l ++ [(b, s)]

/-- `FileQueueDB.deleteFilesByBucket(bucketId)`: pre-read per-status
aggregates, delete the rows, subtract those aggregates from the global
ledger and reset the bucket ledger entry to empty when anything was
deleted. -/
def deleteFilesByBucket (db : DB) (bucketId : Nat) : DB :=
  let changes := truthCount db.rows (some bucketId) Status.pending
    + truthCount db.rows (some bucketId) Status.in_progress
    + truthCount db.rows (some bucketId) Status.completed
    + truthCount db.rows (some bucketId) Status.error
    + truthCount db.rows (some bucketId) Status.conflict
  let sub := fun (g : Stats) (st : Status) =>
    g.adjust st (-(truthCount db.rows (some bucketId) st)) (-(truthSize db.rows (some bucketId) st))
  let db1 := { db with rows := db.rows.filter (fun r => !(r.bucket_id = bucketId)) }
  if 0 < changes then
    { db1 with
      globalStats := sub (sub (sub (sub (sub db.globalStats Status.pending)
        Status.in_progress) Status.completed) Status.error) Status.conflict,
      bucketStats := setBucketStats db.bucketStats bucketId emptyStats }
  else db1

/-- `FileQueueDB.createBucket`: a fresh bucket row plus an empty ledger
entry (`this._bucketStats[id] = this._emptyStats()`). -/
def createBucket (db : DB) (b : Nat) : DB :=
  { db with buckets := db.buckets ++ [b], bucketStats := db.bucketStats ++ [(b, emptyStats)] }

/-- `FileQueueDB.deleteBucket`: delete the files first, then the bucket row
and its ledger entry. -/
def deleteBucket (db : DB) (b : Nat) : DB :=
  let db1 := deleteFilesByBucket db b
  { db1 with
    buckets := db1.buckets.filter (fun x => !(x = b)),
    bucketStats := db1.bucketStats.filter (fun p => !(p.1 = b)) }

/-! ## The store operations as one alphabet -/

/-- Every mutating queue-store operation, with the clock tick at which it
runs. -/
inductive StoreOp where
  | addFiles (files : List NewFile) (now : Nat)
  | claim (bucketId : Nat) (folder : String) (limit workerId now : Nat)
  | commit (i : Nat) (st : Status) (e : Extras) (now : Nat)
  | resolve (i : Nat) (a : Action) (now : Nat)
  | resolveAll (a : Action) (now : Nat)
  | resolveAllForBucket (b : Nat) (a : Action) (now : Nat)
  | retry (i : Nat) (now : Nat)
  | retryAll (now : Nat)
  | retryAllForBucket (b : Nat) (now : Nat)
  | deleteFiles (b : Nat)
  | newBucket (b : Nat)
  | dropBucket (b : Nat)
deriving DecidableEq, Repr

def applyOp (op : StoreOp) (db : DB) : DB :=
  match op with
  | StoreOp.addFiles files now => (addFilesTransaction now db files).1
  | StoreOp.claim b f limit w now => (claimPendingForBucketAndFolderTransaction db b f limit w now).1
  | StoreOp.commit i st e now => updateStatus db i st e now
  | StoreOp.resolve i a now => resolveConflict db i a now
  | StoreOp.resolveAll a now => resolveAllConflicts db a now
  | StoreOp.resolveAllForBucket b a now => resolveAllConflictsForBucket db b a now
  | StoreOp.retry i now => retryError db i now
  | StoreOp.retryAll now => retryAllErrors db now
  | StoreOp.retryAllForBucket b now => retryAllErrorsForBucket db b now
  | StoreOp.deleteFiles b => deleteFilesByBucket db b
  | StoreOp.newBucket b => createBucket db b
  | StoreOp.dropBucket b => deleteBucket db b

/-! ## Structural invariants -/

/-- Structural well-formedness the store maintains: rows in strictly
ascending id order (AUTOINCREMENT primary key), distinct bucket ids, and
ledger entries keyed exactly by the buckets of the `buckets` table. -/
def WF (db : DB) : Prop :=
  db.rows.Pairwise (fun a b => a.id < b.id)
    ∧ db.buckets.Nodup
    ∧ (db.bucketStats.map Prod.fst).Nodup
    ∧ (∀ p ∈ db.bucketStats, p.1 ∈ db.buckets)
    ∧ (∀ b ∈ db.buckets, b ∈ db.bucketStats.map Prod.fst)

instance (db : DB) : Decidable (WF db) := by
  unfold WF
  infer_instance

/-- Ledger fidelity: the global ledger and every per-bucket ledger entry
equal the ground-truth aggregates, and every row's bucket has a ledger
entry (so a bucket without an entry has no rows at all). -/
def LedgerAccurate (db : DB) : Prop :=
  (∀ st : Status, db.globalStats.get st
      = ⟨truthCount db.rows none st, truthSize db.rows none st⟩)
    ∧ (∀ p ∈ db.bucketStats, ∀ st : Status,
        p.2.get st = ⟨truthCount db.rows (some p.1) st, truthSize db.rows (some p.1) st⟩)
    ∧ (∀ r ∈ db.rows, r.bucket_id ∈ db.bucketStats.map Prod.fst)

instance (db : DB) : Decidable (LedgerAccurate db) := by
  unfold LedgerAccurate
  infer_instance

/-- Hash-pair consistency over the queue rows: a completed row carries
equal hashes, a conflict row two distinct non-null hashes. -/
def HashPairInv (rows : List FileRow) : Prop :=
  ∀ r ∈ rows,
    (r.status = Status.completed → r.source_hash = r.destination_hash)
      ∧ (r.status = Status.conflict →
          r.source_hash ≠ none ∧ r.destination_hash ≠ none
            ∧ r.source_hash ≠ r.destination_hash)

/-- How the repository invokes the store: files are inserted for existing
buckets (the scanner pairs `addFilesForBucket` with a created bucket) and
bucket creation picks a fresh AUTOINCREMENT id. -/
def OpValid (db : DB) : StoreOp → Prop
  | StoreOp.addFiles files _ => ∀ f ∈ files, f.bucketId ∈ db.buckets
  | StoreOp.newBucket b => b ∉ db.buckets
  | _ => True

/-- The hash shapes of the store calls actually made by the workers and
the scanner: commits to `completed` carry one hash value in both fields,
commits to `conflict` two distinct non-null hashes, inserted rows are
never in conflict (the scanner inserts `pending`, or `completed` on its
fast path), and conflict resolution uses action `overwrite`. -/
def OpHashValid : StoreOp → Prop
  | StoreOp.commit _ st e _ =>
      (st = Status.completed → e.sourceHash ≠ none ∧ e.sourceHash = e.destinationHash)
        ∧ (st = Status.conflict →
            e.sourceHash ≠ none ∧ e.destinationHash ≠ none ∧ e.sourceHash ≠ e.destinationHash)
  | StoreOp.addFiles files _ => ∀ f ∈ files, f.status ≠ Status.conflict
  | StoreOp.resolve _ a _ => a = Action.overwrite
  | StoreOp.resolveAll a _ => a = Action.overwrite
  | StoreOp.resolveAllForBucket _ a _ => a = Action.overwrite
  | _ => True

/-! ## Copy workers

File contents are byte lists; a digest is the value of the configured
hash algorithm, an arbitrary function `h` from contents to hex strings
(`createHasher` / `digestHasher` produce the same digest for the same
algorithm and input).  A streamed copy is modelled by the pair
`(src, written)`: `src` is what the read stream delivered and `written`
what actually landed on disk at the destination, which differs from
`src` exactly when the write path corrupted the data. -/

/-- The `result` field of a worker outcome message
(`file-thread.js` vocabulary). -/
inductive CopyOutcome where
  | identical (sourceHash destHash : String)
  | conflict (sourceHash destHash : String)
  | copied (sourceHash destHash : String)
  | integrity_error (sourceHash destHash : String)
deriving DecidableEq, Repr

/-- `file-thread.js` `processFile`, destination-absent branch:
`copyFileWithHash` hashes the read chunks into `sourceHash`, then
`computeFileHash(destinationPath)` re-reads the written file; on mismatch
the destination is unlinked and the result is `integrity_error`.  Returns
the outcome and the destination content left on disk. -/
def threadProcessNew (h : List Nat → String) (src written : List Nat) : CopyOutcome × Option (List Nat) :=
  let sourceHash := h src
  let destHash := h written
  if sourceHash ≠ destHash then (CopyOutcome.integrity_error sourceHash destHash, none)
  else (CopyOutcome.copied sourceHash destHash, some written)

/-- `src/workers/index.js` `copyFileWithHash`: both hashers are fed the
chunks delivered by the *read* stream (`sourceHash.update(chunk);
destHash.update(chunk)`), so the reported destination hash is a hash of
the source bytes, not of the written file. -/
def poolCopyFileWithHash (h : List Nat → String) (src written : List Nat) : String × String × Option (List Nat) :=
  (h src, h src, some written)

/-- `src/workers/index.js` `WorkerPool._processFile`, destination-absent
branch: copy, then compare the two reported hashes; on mismatch unlink
and commit `error` with the integrity message, else commit `completed`.
Returns the committed status and the destination content left on disk. -/
def poolProcessNew (h : List Nat → String) (src written : List Nat) : Status × Option (List Nat) :=
  let res := poolCopyFileWithHash h src written
  if res.1 ≠ res.2.1 then (Status.error, none)
  else (Status.completed, res.2.2)

/-! ## Bucket scheduler (`WorkerPool` loop) -/

/-- The scheduler state the worker-cap invariant is about. -/
structure Pool where
  workerCount : Nat
  activeWorkers : Nat
deriving DecidableEq, Repr

/-- `setWorkerCount(n)`: clamp into `[1, config.workers.maxCount]` and
apply immediately; active workers are untouched. -/
def setWorkerCount (maxCount : Nat) (p : Pool) (n : Nat) : Pool :=
  { p with workerCount := max 1 (min n maxCount) }

/-- One `_processLoop` claim attempt, given how many pending rows the
store could hand over: `slots = workerCount - activeWorkers`; when
positive, claim at most `slots` rows and dispatch each, incrementing
`activeWorkers`.  Returns the new state and the requested limit. -/
def loopStep (p : Pool) (claimable : Nat) : Pool × Nat :=
  let slots : Int := (p.workerCount : Int) - (p.activeWorkers : Int)
  if 0 < slots then
    ({ p with activeWorkers := p.activeWorkers + min claimable slots.toNat }, slots.toNat)
  else (p, 0)

/-- A worker's completion handler: `this.activeWorkers--`. -/
def finishStep (p : Pool) : Pool :=
  { p with activeWorkers := p.activeWorkers - 1 }

/-- One folder's entry of `getActiveFolderCounts`. -/
structure FolderCounts where
  pending : Nat
  inProgress : Nat
deriving DecidableEq, Repr

/-- Does a counts snapshot report a folder as active
(`counts.pending > 0 || counts.inProgress > 0`)? -/
def folderActive (counts : String → Option FolderCounts) (f : String) : Bool :=
  match counts f with
  | some c => decide (0 < c.pending) || decide (0 < c.inProgress)
  | none => false

/-- Folder selection of `_processLoop`: the first source folder (bucket
source-list order, folders already resolved) whose counts snapshot
reports pending or in-progress work. -/
def selectTargetFolder (folders : List String) (counts : String → Option FolderCounts) : Option String :=
  folders.find? (folderActive counts)

/-- The claim decision of one `_processLoop` iteration: with a target
folder whose snapshot has `pending > 0` and free slots, claim
`workerCount - activeWorkers` rows from exactly that folder. -/
def loopClaimPlan (folders : List String) (counts : String → Option FolderCounts) (p : Pool) : Option (String × Nat) :=
  match selectTargetFolder folders counts with
  | none => none
  | some f =>
      match counts f with
      | some c =>
          if 0 < c.pending then
            if 0 < (p.workerCount : Int) - (p.activeWorkers : Int) then
              some (f, ((p.workerCount : Int) - (p.activeWorkers : Int)).toNat)
            else none
          else none
      | none => none

/-! ## Concrete fixtures used to evaluate the model -/

/-- A concrete instantiation of the configurable content hash, used to
evaluate the worker models on explicit inputs. -/
def demoHash (c : List Nat) : String :=
  toString c

/-- A template row for concrete evaluations. -/
def baseRow : FileRow :=
  { id := 1, bucket_id := 1, source_path := "/S/a.txt", source_folder := "/S",
    relative_path := "a.txt", destination_path := "/D/a.txt", file_size := 13,
    source_hash := none, destination_hash := none, status := Status.pending,
    error_message := none, created_at := 0, updated_at := 0,
    started_at := none, completed_at := none, worker_id := none }

/-- One conflict row carrying the two differing hashes the worker records
on a pre-copy mismatch. -/
def conflictRow : FileRow :=
  { baseRow with status := Status.conflict,
                 source_hash := some "aaa", destination_hash := some "bbb" }

/-- A queue holding one conflict row. -/
def conflictDB : DB :=
  { rows := [conflictRow],
    buckets := [1],
    globalStats := emptyStats.adjust Status.conflict 1 13,
    bucketStats := [(1, emptyStats.adjust Status.conflict 1 13)] }

/-- A folder-counts snapshot: `/A` fully drained (no entry), `/B` with two
pending rows. -/
def demoCounts (s : String) : Option FolderCounts :=
  if s = "/B" then some ⟨2, 0⟩ else none

/-- A commit-extras value supplying hashes and a completion timestamp but
neither error message, worker id nor start time. -/
def demoExtras : Extras :=
  { sourceHash := some "h1", destinationHash := some "h1", errorMessage := none,
    workerId := none, startedAt := none, completedAt := some "ts" }

/-- A queue holding one pending row, ready to be claimed. -/
def pendingDB : DB :=
  { rows := [baseRow],
    buckets := [1],
    globalStats := emptyStats.adjust Status.pending 1 13,
    bucketStats := [(1, emptyStats.adjust Status.pending 1 13)] }

/-! # Theorems -/

/-! ## Generic list helpers -/

theorem sum_map_add {α : Type} (l : List α) (f g : α → Int) :
    (l.map (fun x => f x + g x)).sum = (l.map f).sum + (l.map g).sum := by
  induction l with
  | nil => simp
  | cons a t ih => simp [ih]; ring

theorem sum_map_sub {α : Type} (l : List α) (f g : α → Int) :
    (l.map (fun x => f x - g x)).sum = (l.map f).sum - (l.map g).sum := by
  induction l with
  | nil => simp
  | cons a t ih => simp [ih]; ring

theorem sum_map_congr {α : Type} (l : List α) (f g : α → Int)
    (h : ∀ x ∈ l, f x = g x) : (l.map f).sum = (l.map g).sum := by
  rw [List.map_congr_left h]

theorem map_self_of_fix {α : Type} (l : List α) (f : α → α)
    (h : ∀ x ∈ l, f x = x) : l.map f = l := by
  induction l with
  | nil => rfl
  | cons a t ih =>
      simp only [List.map_cons, h a (by simp)]
      rw [ih (fun x hx => h x (by simp [hx]))]

/-- Summing an id-guarded mixture over rows with strictly ascending ids:
the guarded row contributes `u`, every other row `v`. -/
theorem sum_update_single (rows : List FileRow)
    (hnd : rows.Pairwise (fun a b => a.id < b.id)) (r0 : FileRow)
    (hr : r0 ∈ rows) (u v : FileRow → Int) :
    (rows.map (fun r => if r.id = r0.id then u r else v r)).sum
      = (rows.map v).sum + u r0 - v r0 := by
  induction rows with
  | nil => cases hr
  | cons a t ih =>
      rcases List.pairwise_cons.mp hnd with ⟨ha, ht⟩
      rcases List.mem_cons.mp hr with rfl | hrt
      · have htail : ∀ r ∈ t, (if r.id = r0.id then u r else v r) = v r := by
          intro r hrt
          have hlt : r0.id < r.id := ha r hrt
          have hne : r.id ≠ r0.id := by omega
          simp [hne]
        simp only [List.map_cons, List.sum_cons, if_pos rfl]
        rw [List.map_congr_left htail]
        simp
        ring
      · have hane : a.id ≠ r0.id := Nat.ne_of_lt (ha r0 hrt)
        simp only [List.map_cons, List.sum_cons, if_neg hane]
        rw [ih ht hrt]
        ring

/-- `find?` on an id-keyed list with ascending ids, after an id-preserving
per-row update, returns the updated unique row. -/
theorem find_id_map_update (rows : List FileRow) (i : Nat) (f : FileRow → FileRow)
    (hf : ∀ x, (f x).id = x.id)
    (hnd : rows.Pairwise (fun a b => a.id < b.id)) (r : FileRow)
    (hr : r ∈ rows) (hid : r.id = i) :
    (rows.map f).find? (fun x => x.id = i) = some (f r) := by
  induction rows with
  | nil => cases hr
  | cons a t ih =>
      rcases List.pairwise_cons.mp hnd with ⟨ha, ht⟩
      rcases List.mem_cons.mp hr with rfl | hrt
      · simp [List.find?, hf, hid]
      · have : a.id ≠ i := by
          have := ha r hrt
          omega
        simp only [List.map_cons, List.find?]
        rw [show (decide ((f a).id = i)) = false by simp [hf, this]]
        exact ih ht hrt

theorem find_id_none (rows : List FileRow) (i : Nat)
    (h : ∀ r ∈ rows, r.id ≠ i) :
    rows.find? (fun x => x.id = i) = none := by
  induction rows with
  | nil => rfl
  | cons a t ih =>
      simp only [List.find?]
      rw [show (decide (a.id = i)) = false by simp [h a (by simp)]]
      exact ih (fun r hr => h r (by simp [hr]))

/-! ## Frame lemmas for the stats-only mutators -/

theorem adjustStats_rows (db : DB) (b : Option Nat) (st : Status) (dc ds : Int) :
    (adjustStats db b st dc ds).rows = db.rows := by
  cases b <;> rfl

theorem adjustStats_buckets (db : DB) (b : Option Nat) (st : Status) (dc ds : Int) :
    (adjustStats db b st dc ds).buckets = db.buckets := by
  cases b <;> rfl

theorem transitionStats_rows (db : DB) (b : Nat) (a τ : Status) (s : Nat) :
    (transitionStats db b a τ s).rows = db.rows := by
  simp [transitionStats, adjustStats_rows]

theorem transitionStats_buckets (db : DB) (b : Nat) (a τ : Status) (s : Nat) :
    (transitionStats db b a τ s).buckets = db.buckets := by
  simp [transitionStats, adjustStats_buckets]

theorem adjustStats_keys (db : DB) (b : Option Nat) (st : Status) (dc ds : Int) :
    (adjustStats db b st dc ds).bucketStats.map Prod.fst = db.bucketStats.map Prod.fst := by
  cases b with
  | none => rfl
  | some x =>
      simp only [adjustStats, List.map_map]
      refine List.map_congr_left ?_
      intro p _
      by_cases h : p.1 = x <;> simp [h]

theorem transitionStats_keys (db : DB) (b : Nat) (a τ : Status) (s : Nat) :
    (transitionStats db b a τ s).bucketStats.map Prod.fst = db.bucketStats.map Prod.fst := by
  simp [transitionStats, adjustStats_keys]

/-! ## C3: crash recovery -/

/-- C3: startup crash recovery sets every `in_progress` row to `pending`,
clears its worker id and start time and bumps its updated-at; afterwards
no row is `in_progress`, the row count is unchanged, and every row that
was not `in_progress` is untouched (position by position, no other field
of any row is modified). -/
theorem crash_recovery_complete (now : Nat) (rows : List FileRow) :
    ((recoverCrash now rows).filter (fun r => r.status = Status.in_progress)).length = 0
    ∧ (recoverCrash now rows).length = rows.length
    ∧ ∀ i (h : i < rows.length),
        (recoverCrash now rows).get ⟨i, by simpa [recoverCrash] using h⟩
          = (if (rows.get ⟨i, h⟩).status = Status.in_progress
             then recoverRow now (rows.get ⟨i, h⟩)
             else rows.get ⟨i, h⟩) := by
  refine ⟨?_, by simp [recoverCrash], ?_⟩
  · rw [List.length_eq_zero, List.filter_eq_nil_iff]
    intro a ha
    rcases List.mem_map.mp ha with ⟨r, _, rfl⟩
    by_cases h : r.status = Status.in_progress <;> simp [h, recoverRow]
  · intro i h
    simp [recoverCrash, List.getElem_map]

/-- Concrete run of C3: one claimed (in_progress) row is recovered to a
pending row with cleared worker id and start time. -/
theorem crash_recovery_complete_witness :
    ((recoverCrash 9 [stampRow 3 4 baseRow]).filter
        (fun r => r.status = Status.in_progress)).length = 0
    ∧ (recoverCrash 9 [stampRow 3 4 baseRow]).length = 1
    ∧ (recoverCrash 9 [stampRow 3 4 baseRow]).get ⟨0, by decide⟩
        = recoverRow 9 (stampRow 3 4 baseRow) := by
  have h := crash_recovery_complete 9 [stampRow 3 4 baseRow]
  refine ⟨h.1, h.2.1, ?_⟩
  have h3 := h.2.2 0 (by decide)
  simpa using h3

/-! ## C6: row-targeted conflict resolution -/

theorem resolveConflict_rows (db : DB) (i : Nat) (a : Action) (now : Nat) :
    (resolveConflict db i a now).rows
      = db.rows.map (fun r =>
          if r.id = i && r.status = Status.conflict then resolveActionRow a now r else r) := by
  unfold resolveConflict
  cases hm : getFileMeta db.rows i with
  | none => rfl
  | some m =>
      by_cases hc : (db.rows.any (fun r => r.id = i && r.status = Status.conflict)) = true
      · simp [hc, transitionStats_rows]
      · simp [hc]

/-- C6: resolve-conflict with `overwrite` moves the conflict row to
`pending` and nulls its destination hash; with `skip` it moves it to
`completed`; rows with other ids are untouched; and when the row is not
in conflict the operation changes nothing at all, for either action. -/
theorem resolve_conflict_spec (db : DB) (i now : Nat)
    (hwf : db.rows.Pairwise (fun a b => a.id < b.id)) :
    (∀ r ∈ db.rows, r.id = i → r.status = Status.conflict →
        getFileMeta (resolveConflict db i Action.overwrite now).rows i
            = some (resolveOverwriteRow now r)
          ∧ getFileMeta (resolveConflict db i Action.skip now).rows i
            = some (resolveSkipRow now r))
    ∧ (∀ r : FileRow, (resolveOverwriteRow now r).status = Status.pending
          ∧ (resolveOverwriteRow now r).destination_hash = none
          ∧ (resolveSkipRow now r).status = Status.completed
          ∧ (resolveSkipRow now r).source_hash = r.source_hash
          ∧ (resolveSkipRow now r).destination_hash = r.destination_hash)
    ∧ (∀ a : Action, ∀ x ∈ db.rows, x.id ≠ i → x ∈ (resolveConflict db i a now).rows)
    ∧ ((∀ r ∈ db.rows, r.id = i → r.status ≠ Status.conflict) →
        ∀ a : Action, resolveConflict db i a now = db) := by
  refine ⟨?_, ?_, ?_, ?_⟩
  · intro r hr hid hst
    constructor <;>
    · rw [resolveConflict_rows]
      unfold getFileMeta
      rw [find_id_map_update db.rows i _ (by
            intro x
            by_cases h : (x.id = i && x.status = Status.conflict) = true
            · simp only [h, if_true]
              simp [resolveActionRow, resolveOverwriteRow, resolveSkipRow]
            · simp [h]) hwf r hr hid]
      simp [hid, hst, resolveActionRow]
  · intro r
    simp [resolveOverwriteRow, resolveSkipRow]
  · intro a x hx hne
    rw [resolveConflict_rows]
    refine List.mem_map.mpr ⟨x, hx, ?_⟩
    simp [hne]
  · intro hno a
    have hchg : (db.rows.any (fun r => r.id = i && r.status = Status.conflict)) = false := by
      rw [List.any_eq_false]
      intro r hr
      simp only [Bool.and_eq_true, decide_eq_true_eq, not_and]
      intro hid
      exact hno r hr hid
    have hrows : db.rows.map (fun r =>
        if r.id = i ∧ r.status = Status.conflict then resolveActionRow a now r else r)
          = db.rows := by
      refine map_self_of_fix _ _ ?_
      intro x hx
      by_cases hid : x.id = i
      · simp [hid, hno x hx hid]
      · simp [hid]
    unfold resolveConflict
    cases hm : getFileMeta db.rows i with
    | none => simp [hrows]
    | some m => simp [hchg, hrows]

/-- Concrete run of C6 on the one-conflict-row queue: overwrite yields a
pending row with null destination hash, skip yields a completed row, and
a second resolution on the already-resolved row is a no-op. -/
theorem resolve_conflict_spec_witness :
    (getFileMeta (resolveConflict conflictDB 1 Action.overwrite 7).rows 1
        = some (resolveOverwriteRow 7 conflictRow)
      ∧ getFileMeta (resolveConflict conflictDB 1 Action.skip 7).rows 1
        = some (resolveSkipRow 7 conflictRow))
    ∧ resolveConflict pendingDB 1 Action.skip 7 = pendingDB := by
  have h := resolve_conflict_spec conflictDB 1 7 (by decide)
  refine ⟨h.1 conflictRow (by decide) (by decide) (by decide), ?_⟩
  have h2 := resolve_conflict_spec pendingDB 1 7 (by decide)
  exact h2.2.2.2 (by decide) Action.skip

/-! ## C10: commit frame conditions -/

theorem getFileMeta_unique (rows : List FileRow) (i : Nat)
    (hnd : rows.Pairwise (fun a b => a.id < b.id)) (r : FileRow)
    (hr : r ∈ rows) (hid : r.id = i) : getFileMeta rows i = some r := by
  have h := find_id_map_update rows i (fun x => x) (fun x => rfl) hnd r hr hid
  simpa [getFileMeta] using h

theorem updateStatus_rows (db : DB) (i : Nat) (st : Status) (e : Extras) (now : Nat) :
    (updateStatus db i st e now).rows
      = db.rows.map (fun x => if x.id = i then updateStatusRow st e now x else x) := by
  unfold updateStatus
  cases hm : getFileMeta db.rows i with
  | none => rfl
  | some m =>
      by_cases hc : ((db.rows.any (fun r => r.id = i)) && !(m.status = st)) = true
      · simp [hc, transitionStats_rows]
      · simp only []
        rw [if_neg (by simpa using hc)]

/-- C10: a commit (`updateStatus`) leaves every unsupplied extra — source
hash, destination hash, error message, worker id, started-at,
completed-at — at its prior value, changes only the supplied extras plus
`status` and `updated_at` (identity columns, paths, size and created-at
are untouched), leaves rows with other ids alone, and adjusts the stats
ledger only when the new status differs from the row's current status. -/
theorem update_status_frame (db : DB) (i : Nat) (st : Status) (e : Extras) (now : Nat)
    (hwf : db.rows.Pairwise (fun a b => a.id < b.id)) :
    (∀ r ∈ db.rows, r.id = i →
        getFileMeta (updateStatus db i st e now).rows i = some (updateStatusRow st e now r)
          ∧ (e.sourceHash = none → (updateStatusRow st e now r).source_hash = r.source_hash)
          ∧ (e.destinationHash = none →
              (updateStatusRow st e now r).destination_hash = r.destination_hash)
          ∧ (e.errorMessage = none → (updateStatusRow st e now r).error_message = r.error_message)
          ∧ (e.workerId = none → (updateStatusRow st e now r).worker_id = r.worker_id)
          ∧ (e.startedAt = none → (updateStatusRow st e now r).started_at = r.started_at)
          ∧ (e.completedAt = none → (updateStatusRow st e now r).completed_at = r.completed_at)
          ∧ (updateStatusRow st e now r).status = st
          ∧ (updateStatusRow st e now r).updated_at = now
          ∧ (updateStatusRow st e now r).id = r.id
          ∧ (updateStatusRow st e now r).bucket_id = r.bucket_id
          ∧ (updateStatusRow st e now r).file_size = r.file_size
          ∧ (updateStatusRow st e now r).source_path = r.source_path
          ∧ (updateStatusRow st e now r).source_folder = r.source_folder
          ∧ (updateStatusRow st e now r).relative_path = r.relative_path
          ∧ (updateStatusRow st e now r).destination_path = r.destination_path
          ∧ (updateStatusRow st e now r).created_at = r.created_at
          ∧ (r.status = st →
              (updateStatus db i st e now).globalStats = db.globalStats
                ∧ (updateStatus db i st e now).bucketStats = db.bucketStats))
    ∧ (∀ x ∈ db.rows, x.id ≠ i → x ∈ (updateStatus db i st e now).rows) := by
  constructor
  · intro r hr hid
    have hmeta : getFileMeta db.rows i = some r := getFileMeta_unique db.rows i hwf r hr hid
    refine ⟨?_, ?_, ?_, ?_, ?_, ?_, ?_, rfl, rfl, rfl, rfl, rfl, rfl, rfl, rfl, rfl, rfl, ?_⟩
    · have hfind := find_id_map_update db.rows i
        (fun x => if x.id = i then updateStatusRow st e now x else x)
        (fun x => by by_cases h : x.id = i <;> simp [h, updateStatusRow]) hwf r hr hid
      rw [updateStatus_rows]
      unfold getFileMeta
      simpa [hid] using hfind
    · intro h; simp [updateStatusRow, coalesce, h]
    · intro h; simp [updateStatusRow, coalesce, h]
    · intro h; simp [updateStatusRow, coalesce, h]
    · intro h; simp [updateStatusRow, coalesce, h]
    · intro h; simp [updateStatusRow, coalesce, h]
    · intro h; simp [updateStatusRow, coalesce, h]
    · intro hsame
      unfold updateStatus
      rw [hmeta]
      simp [hsame]
  · intro x hx hne
    rw [updateStatus_rows]
    exact List.mem_map.mpr ⟨x, hx, by simp [hne]⟩

/-- Concrete run of C10: committing the pending row to `pending` with
hash extras only keeps error message, worker id and start time, and the
ledger is untouched because the status did not change. -/
theorem update_status_frame_witness :
    getFileMeta (updateStatus pendingDB 1 Status.pending demoExtras 8).rows 1
        = some (updateStatusRow Status.pending demoExtras 8 baseRow)
      ∧ (updateStatusRow Status.pending demoExtras 8 baseRow).error_message
        = baseRow.error_message
      ∧ (updateStatus pendingDB 1 Status.pending demoExtras 8).globalStats
        = pendingDB.globalStats := by
  have h := update_status_frame pendingDB 1 Status.pending demoExtras 8 (by decide)
  obtain ⟨hmeta, _, _, herr, _, _, _, _, _, _, _, _, _, _, _, _, _, hstats⟩ :=
    h.1 baseRow (by decide) (by decide)
  exact ⟨hmeta, herr (by decide), (hstats (by decide)).1⟩

/-! ## C7: insert-many deduplication -/

theorem insertFile_rows (now : Nat) (db : DB) (f : NewFile) :
    (insertFile now db f).rows
      = (if tripleExists db.rows f then db.rows
         else db.rows ++ [rowOfNewFile (nextId db.rows) now f]) := by
  unfold insertFile
  split
  · rfl
  · simp [adjustStats_rows]

theorem tripleExists_append (rows ext : List FileRow) (f : NewFile)
    (h : tripleExists rows f = true) : tripleExists (rows ++ ext) f = true := by
  unfold tripleExists at h ⊢
  rw [List.any_append, h, Bool.true_or]

theorem tripleExists_insert_self (now : Nat) (db : DB) (f : NewFile) :
    tripleExists (insertFile now db f).rows f = true := by
  rw [insertFile_rows]
  split
  · assumption
  · unfold tripleExists
    rw [List.any_append]
    simp [rowOfNewFile]

theorem insertFile_preserves_triple (now : Nat) (db : DB) (f g : NewFile)
    (h : tripleExists db.rows g = true) :
    tripleExists (insertFile now db f).rows g = true := by
  rw [insertFile_rows]
  split
  · exact h
  · exact tripleExists_append _ _ _ h

theorem addFiles_preserves_triple (now : Nat) (files : List NewFile) :
    ∀ db : DB, ∀ g : NewFile, tripleExists db.rows g = true →
      tripleExists (addFilesTransaction now db files).1.rows g = true := by
  induction files with
  | nil => intro db g h; exact h
  | cons f rest ih =>
      intro db g h
      exact ih (insertFile now db f) g (insertFile_preserves_triple now db f g h)

theorem addFiles_establishes (now : Nat) (files : List NewFile) :
    ∀ db : DB, ∀ f ∈ files, tripleExists (addFilesTransaction now db files).1.rows f = true := by
  induction files with
  | nil => intro db f h; cases h
  | cons g rest ih =>
      intro db f hf
      rcases List.mem_cons.mp hf with rfl | hrest
      · exact addFiles_preserves_triple now rest (insertFile now db f) f
          (tripleExists_insert_self now db f)
      · exact ih (insertFile now db g) f hrest

theorem addFiles_noop (now : Nat) (files : List NewFile) :
    ∀ db : DB, (∀ f ∈ files, tripleExists db.rows f = true) →
      addFilesTransaction now db files = (db, 0) := by
  induction files with
  | nil => intro db _; rfl
  | cons f rest ih =>
      intro db h
      have hf : tripleExists db.rows f = true := h f (by simp)
      have hins : insertFile now db f = db := by
        unfold insertFile
        rw [if_pos hf]
      unfold addFilesTransaction
      rw [hins, ih db (fun g hg => h g (by simp [hg])), if_pos hf]
      rfl

theorem addFiles_length (now : Nat) (files : List NewFile) :
    ∀ db : DB, (addFilesTransaction now db files).1.rows.length
      = db.rows.length + (addFilesTransaction now db files).2 := by
  induction files with
  | nil => intro db; rfl
  | cons f rest ih =>
      intro db
      unfold addFilesTransaction
      by_cases h : tripleExists db.rows f = true
      · have hins : insertFile now db f = db := by
          unfold insertFile
          rw [if_pos h]
        simp only [hins, if_pos h, ih db]
        omega
      · have hins : (insertFile now db f).rows.length = db.rows.length + 1 := by
          rw [insertFile_rows, if_neg h]
          simp
        have := ih (insertFile now db f)
        simp only [if_neg h]
        omega

/-- C7: Insert-many deduplicates on the (source path, destination path,
bucket) triple: the first call adds exactly as many rows as it reports,
and a second call with the same row-set reports 0 added and leaves the
whole store state — queue rows and ledger — unchanged. -/
theorem insert_many_dedup_idempotent (db : DB) (files : List NewFile) (n1 n2 : Nat) :
    (addFilesTransaction n2 (addFilesTransaction n1 db files).1 files).2 = 0
    ∧ (addFilesTransaction n2 (addFilesTransaction n1 db files).1 files).1
      = (addFilesTransaction n1 db files).1
    ∧ (addFilesTransaction n1 db files).1.rows.length
      = db.rows.length + (addFilesTransaction n1 db files).2 := by
  have hest : ∀ f ∈ files, tripleExists (addFilesTransaction n1 db files).1.rows f = true :=
    addFiles_establishes n1 files db
  have hnoop := addFiles_noop n2 files (addFilesTransaction n1 db files).1 hest
  exact ⟨by rw [hnoop], by rw [hnoop], addFiles_length n1 files db⟩

/-! ## C9: folder stickiness of the scheduler loop -/

theorem find_decomp {α : Type} (p : α → Bool) (l : List α) (a : α)
    (h : l.find? p = some a) :
    ∃ l1 l2, l = l1 ++ a :: l2 ∧ (∀ x ∈ l1, p x = false) ∧ p a = true := by
  induction l with
  | nil => cases h
  | cons b t ih =>
      by_cases hp : p b = true
      · have hba : b = a := by
          have hh : some b = some a := by rw [← h]; simp [List.find?, hp]
          exact Option.some.inj hh
        subst hba
        exact ⟨[], t, rfl, by simp, hp⟩
      · have hfb : p b = false := by simpa using hp
        have ht : t.find? p = some a := by
          rw [← h]; simp [List.find?, hfb]
        rcases ih ht with ⟨l1, l2, rfl, h1, h2⟩
        refine ⟨b :: l1, l2, rfl, ?_, h2⟩
        intro x hx
        rcases List.mem_cons.mp hx with rfl | hx1
        · exact hfb
        · exact h1 x hx1

theorem claimLoop_claimed_from (w now : Nat) (sel : List FileRow) :
    ∀ db : DB, ∀ x ∈ (claimLoop w now db sel).2, ∃ row ∈ sel, x = claimedView w row := by
  induction sel with
  | nil => intro db x hx; cases hx
  | cons row rest ih =>
      intro db x hx
      unfold claimLoop at hx
      by_cases hc : (markInProgress db row.id w now).2 = true
      · simp only [hc, if_true] at hx
        rcases List.mem_cons.mp hx with rfl | hx1
        · exact ⟨row, by simp, rfl⟩
        · rcases ih _ x hx1 with ⟨r2, hr2, hx2⟩
          exact ⟨r2, by simp [hr2], hx2⟩
      · simp only [Bool.not_eq_true] at hc
        simp only [hc, Bool.false_eq_true, if_false] at hx
        rcases ih _ x hx with ⟨r2, hr2, hx2⟩
        exact ⟨r2, by simp [hr2], hx2⟩

theorem selectPending_folder (rows : List FileRow) (b : Nat) (f : String) (limit : Nat) :
    ∀ r ∈ selectPendingForBucketAndFolder rows b f limit,
      r.status = Status.pending ∧ r.bucket_id = b ∧ r.source_folder = f := by
  intro r hr
  have hmem : r ∈ rows.filter (fun x =>
      x.status = Status.pending && x.bucket_id = b && x.source_folder = f) :=
    List.mem_of_mem_take hr
  have := (List.mem_filter.mp hmem).2
  simp only [Bool.and_eq_true, decide_eq_true_eq] at this
  exact ⟨this.1.1, this.1.2, this.2⟩

/-- C9: whenever a scheduler iteration decides to claim, the chosen folder
is the first of the bucket's source list whose counts snapshot reports
pending or in-progress work, its snapshot has pending rows, and the claim
transaction started for it returns rows of exactly that folder. -/
theorem folder_stickiness (folders : List String) (counts : String → Option FolderCounts)
    (p : Pool) (f : String) (n : Nat)
    (h : loopClaimPlan folders counts p = some (f, n)) :
    (∃ l1 l2, folders = l1 ++ f :: l2
        ∧ (∀ g ∈ l1, folderActive counts g = false)
        ∧ folderActive counts f = true)
    ∧ (∃ c, counts f = some c ∧ 0 < c.pending)
    ∧ ∀ (db : DB) (b limit w now : Nat),
        ∀ r ∈ (claimPendingForBucketAndFolderTransaction db b f limit w now).2,
          r.source_folder = f := by
  have key : ∃ f0, selectTargetFolder folders counts = some f0 ∧ f0 = f
      ∧ ∃ c, counts f0 = some c ∧ 0 < c.pending := by
    cases hs : selectTargetFolder folders counts with
    | none =>
        simp only [loopClaimPlan, hs] at h
        simp at h
    | some f0 =>
        simp only [loopClaimPlan, hs] at h
        cases hc : counts f0 with
        | none =>
            simp only [hc] at h
            simp at h
        | some c =>
            simp only [hc] at h
            by_cases hp : 0 < c.pending
            · simp only [if_pos hp] at h
              by_cases hslots : (0 : Int) < (p.workerCount : Int) - (p.activeWorkers : Int)
              · simp only [if_pos hslots, Option.some.injEq, Prod.mk.injEq] at h
                exact ⟨f0, rfl, h.1, c, hc, hp⟩
              · simp only [if_neg hslots] at h
                simp at h
            · simp only [if_neg hp] at h
              simp at h
  obtain ⟨f0, hs, rfl, hcp⟩ := key
  refine ⟨?_, hcp, ?_⟩
  · exact find_decomp (folderActive counts) folders f0 hs
  · intro db b limit w now r hr
    rcases claimLoop_claimed_from w now _ db r hr with ⟨row, hrow, rfl⟩
    have := (selectPending_folder db.rows b f0 limit row hrow).2.2
    simpa [claimedView] using this

/-- Concrete run of C9: with `/A` drained and `/B` holding two pending
rows, the loop targets `/B` (the first active folder) and asks for the two
free slots. -/
theorem folder_stickiness_witness :
    (∃ l1 l2, ["/A", "/B"] = l1 ++ "/B" :: l2
        ∧ (∀ g ∈ l1, folderActive demoCounts g = false)
        ∧ folderActive demoCounts "/B" = true)
    ∧ (∃ c, demoCounts "/B" = some c ∧ 0 < c.pending)
    ∧ ∀ (db : DB) (b limit w now : Nat),
        ∀ r ∈ (claimPendingForBucketAndFolderTransaction db b "/B" limit w now).2,
          r.source_folder = "/B" :=
  folder_stickiness ["/A", "/B"] demoCounts ⟨2, 0⟩ "/B" 2 (by decide)

/-! ## C8: worker-cap bound -/

/-- C8 counterexample: the claim asserts `activeWorkers ≤ workerCount` at
every moment *including immediately after a live `setWorkerCount`*; but
lowering the cap below the current active count leaves the already
dispatched workers running, so the reachable state right after
`setWorkerCount` violates the bound. -/
theorem worker_cap_violated_after_live_decrease :
    (setWorkerCount 8 (loopStep ⟨2, 0⟩ 2).1 1).workerCount
      < (setWorkerCount 8 (loopStep ⟨2, 0⟩ 2).1 1).activeWorkers := by
  decide

/-- C8 amended: the loop and worker-completion steps preserve
`activeWorkers ≤ workerCount`, every claim requests at most
`workerCount - activeWorkers` rows and nothing is claimed while the pool
is at or over cap; a live `setWorkerCount` leaves the active count
untouched, so after lowering the cap below it the bound is only restored
as workers finish. -/
theorem worker_cap_amended (p : Pool) (c n maxCount : Nat)
    (h : p.activeWorkers ≤ p.workerCount) :
    (loopStep p c).1.activeWorkers ≤ (loopStep p c).1.workerCount
    ∧ (loopStep p c).2 ≤ p.workerCount - p.activeWorkers
    ∧ (p.workerCount ≤ p.activeWorkers → loopStep p c = (p, 0))
    ∧ (finishStep p).activeWorkers ≤ (finishStep p).workerCount
    ∧ (setWorkerCount maxCount p n).activeWorkers = p.activeWorkers := by
  refine ⟨?_, ?_, ?_, ?_, ?_⟩
  · unfold loopStep
    by_cases hs : (0 : Int) < (p.workerCount : Int) - (p.activeWorkers : Int)
    · rw [if_pos hs]
      simp only []
      omega
    · rw [if_neg hs]
      exact h
  · unfold loopStep
    by_cases hs : (0 : Int) < (p.workerCount : Int) - (p.activeWorkers : Int)
    · rw [if_pos hs]
      simp only []
      omega
    · rw [if_neg hs]
      simp
  · intro hge
    unfold loopStep
    rw [if_neg (by omega)]
  · unfold finishStep
    simp only []
    omega
  · rfl

/-- Concrete run of the amended C8: a pool one under cap claims a single
row, stays within cap, and a live cap change leaves the active count as
it was. -/
theorem worker_cap_amended_witness :
    (loopStep ⟨3, 1⟩ 5).1.activeWorkers ≤ (loopStep ⟨3, 1⟩ 5).1.workerCount
    ∧ (loopStep ⟨3, 1⟩ 5).2 ≤ 3 - 1
    ∧ ((3 : Nat) ≤ 1 → loopStep ⟨3, 1⟩ 5 = (⟨3, 1⟩, 0))
    ∧ (finishStep ⟨3, 1⟩).activeWorkers ≤ (finishStep ⟨3, 1⟩).workerCount
    ∧ (setWorkerCount 8 ⟨3, 1⟩ 2).activeWorkers = 1 :=
  worker_cap_amended ⟨3, 1⟩ 5 2 8 (by decide)

/-! ## C1: post-copy integrity verification -/

/-- C1: the claim's verification — destination hash computed from the
*written* file, `completed` on match, unlink plus `integrity_error` on
mismatch — is what `file-thread.js` implements; the in-process worker of
`src/workers/index.js` instead feeds both hashers from the read chunks,
so whatever lands on disk it reports `completed` with a destination hash
equal to the source hash, keeps the corrupted destination, and its
integrity branch is unreachable.  Evaluated at a run whose write path
corrupts byte 0 into byte 1. -/
theorem post_copy_verification_divergence :
    (∀ (h : List Nat → String) (src written : List Nat),
        poolProcessNew h src written = (Status.completed, some written))
    ∧ poolProcessNew demoHash [0] [1] = (Status.completed, some [1])
    ∧ threadProcessNew demoHash [0] [1]
        = (CopyOutcome.integrity_error (demoHash [0]) (demoHash [1]), none)
    ∧ demoHash [1] ≠ demoHash [0] := by
  refine ⟨?_, ?_, ?_, ?_⟩
  · intro h src written
    simp [poolProcessNew, poolCopyFileWithHash]
  · simp [poolProcessNew, poolCopyFileWithHash]
  · have hne : demoHash [0] ≠ demoHash [1] := by decide
    simp [threadProcessNew, hne]
  · decide

/-! ## C4: the claim transaction -/

theorem id_unique (rows : List FileRow) (hnd : rows.Pairwise (fun a b => a.id < b.id))
    (r1 r2 : FileRow) (h1 : r1 ∈ rows) (h2 : r2 ∈ rows) (h : r1.id = r2.id) : r1 = r2 := by
  induction rows with
  | nil => cases h1
  | cons a t ih =>
      rcases List.pairwise_cons.mp hnd with ⟨ha, ht⟩
      rcases List.mem_cons.mp h1 with rfl | h1t
      · rcases List.mem_cons.mp h2 with rfl | h2t
        · rfl
        · exact absurd h (by have := ha r2 h2t; omega)
      · rcases List.mem_cons.mp h2 with rfl | h2t
        · exact absurd h (by have := ha r1 h1t; omega)
        · exact ih ht h1t h2t

theorem pairwise_ids_map (rows : List FileRow) (f : FileRow → FileRow)
    (hf : ∀ x, (f x).id = x.id) (h : rows.Pairwise (fun a b => a.id < b.id)) :
    (rows.map f).Pairwise (fun a b => a.id < b.id) := by
  rw [List.pairwise_map]
  exact h.imp (fun hab => by rw [hf, hf]; exact hab)

theorem mem_map_fix {rows : List FileRow} {f : FileRow → FileRow} {x : FileRow}
    (hx : x ∈ rows) (hfx : f x = x) : x ∈ rows.map f := by
  rw [← hfx]
  exact List.mem_map_of_mem f hx

/-- In the sequential transaction every selected row's guarded update
succeeds: the claimed list is exactly the selected snapshot (status and
worker id overwritten), and the table rows of the selected ids are
stamped. -/
theorem claimLoop_all_succeed (w now : Nat) (sel : List FileRow) :
    ∀ db : DB,
      (∀ r ∈ sel, r ∈ db.rows ∧ r.status = Status.pending) →
      sel.Pairwise (fun a b => a.id < b.id) →
      db.rows.Pairwise (fun a b => a.id < b.id) →
      (claimLoop w now db sel).2 = sel.map (claimedView w)
      ∧ (claimLoop w now db sel).1.rows
        = db.rows.map (fun r => if sel.any (fun s => s.id == r.id) then stampRow w now r else r) := by
  induction sel with
  | nil =>
      intro db _ _ _
      refine ⟨rfl, ?_⟩
      simp [claimLoop]
  | cons row rest ih =>
      intro db hmem hselpw hdbpw
      obtain ⟨hrow_mem, hrow_pend⟩ := hmem row (by simp)
      have hchanged : (markInProgress db row.id w now).2 = true := by
        simp only [markInProgress]
        rw [List.any_eq_true]
        exact ⟨row, hrow_mem, by simp [hrow_pend]⟩
      have hgt : ∀ r ∈ rest, row.id < r.id := (List.pairwise_cons.mp hselpw).1
      have hpw_rest := (List.pairwise_cons.mp hselpw).2
      have hdb2rows : (transitionStats (markInProgress db row.id w now).1 row.bucket_id
          Status.pending Status.in_progress row.file_size).rows
            = db.rows.map (fun r =>
                if r.id = row.id && r.status = Status.pending then stampRow w now r else r) := by
        rw [transitionStats_rows]
        rfl
      have hmem2 : ∀ r ∈ rest,
          r ∈ (transitionStats (markInProgress db row.id w now).1 row.bucket_id
            Status.pending Status.in_progress row.file_size).rows
            ∧ r.status = Status.pending := by
        intro r hr
        obtain ⟨hr_mem, hr_pend⟩ := hmem r (by simp [hr])
        have hne : r.id ≠ row.id := by have := hgt r hr; omega
        exact ⟨by rw [hdb2rows]; exact mem_map_fix hr_mem (by simp [hne]), hr_pend⟩
      have hdb2pw : (transitionStats (markInProgress db row.id w now).1 row.bucket_id
          Status.pending Status.in_progress row.file_size).rows.Pairwise
            (fun a b => a.id < b.id) := by
        rw [hdb2rows]
        refine pairwise_ids_map _ _ (fun x => ?_) hdbpw
        by_cases hx : (x.id = row.id && x.status = Status.pending) = true <;>
          simp [hx, stampRow]
      obtain ⟨ih1, ih2⟩ := ih _ hmem2 hpw_rest hdb2pw
      constructor
      · show (claimLoop w now db (row :: rest)).2 = (row :: rest).map (claimedView w)
        unfold claimLoop
        simp only [hchanged, if_true, List.map_cons]
        rw [ih1]
      · show (claimLoop w now db (row :: rest)).1.rows = _
        unfold claimLoop
        simp only [hchanged, if_true]
        rw [ih2, hdb2rows, List.map_map]
        refine List.map_congr_left ?_
        intro r hr
        by_cases hid : r.id = row.id
        · have hreq : r = row := id_unique db.rows hdbpw r row hr hrow_mem hid
          subst hreq
          have hhead : (r.id = r.id && r.status = Status.pending) = true := by
            simp [hrow_pend]
          have hrest_any : (rest.any (fun s => s.id == (stampRow w now r).id)) = false := by
            rw [List.any_eq_false]
            intro s hs
            have := hgt s hs
            simp [stampRow]
            omega
          simp only [Function.comp, hid, hrow_pend]
          simp [hrest_any, stampRow]
        · have hne2 : (row.id == r.id) = false := by
            simp
            omega
          simp only [Function.comp]
          simp only [if_neg (by simp [hid] : ¬ ((r.id = row.id && r.status = Status.pending) = true))]
          simp [List.any_cons, hne2]

/-- C4: the claim transaction selects at most `limit` pending rows of the
given bucket and folder in strictly ascending id order (FIFO), transitions
each through the pending-guarded `markInProgress` update stamped with the
worker id and a start time, returns exactly the rows whose guarded update
succeeded (in this serialized transaction: all selected ones), leaves
every other row untouched, and a guarded update on a row that is no
longer pending silently changes nothing and reports failure. -/
theorem claim_spec (db : DB) (b : Nat) (f : String) (limit w now : Nat)
    (hwf : db.rows.Pairwise (fun x y => x.id < y.id)) :
    (claimPendingForBucketAndFolderTransaction db b f limit w now).2.length ≤ limit
    ∧ (claimPendingForBucketAndFolderTransaction db b f limit w now).2.Pairwise
        (fun x y => x.id < y.id)
    ∧ (claimPendingForBucketAndFolderTransaction db b f limit w now).2
        = (selectPendingForBucketAndFolder db.rows b f limit).map (claimedView w)
    ∧ (∀ c ∈ (claimPendingForBucketAndFolderTransaction db b f limit w now).2,
        ∃ r ∈ db.rows, r.status = Status.pending ∧ r.bucket_id = b ∧ r.source_folder = f
          ∧ c = claimedView w r
          ∧ stampRow w now r ∈ (claimPendingForBucketAndFolderTransaction db b f limit w now).1.rows)
    ∧ (∀ x ∈ db.rows,
        (∀ c ∈ (claimPendingForBucketAndFolderTransaction db b f limit w now).2, c.id ≠ x.id) →
        x ∈ (claimPendingForBucketAndFolderTransaction db b f limit w now).1.rows)
    ∧ (∀ r : FileRow, (stampRow w now r).status = Status.in_progress
        ∧ (stampRow w now r).worker_id = some w ∧ (stampRow w now r).started_at = some now
        ∧ (claimedView w r).status = Status.in_progress
        ∧ (claimedView w r).worker_id = some w)
    ∧ (∀ (db2 : DB) (j : Nat), (∀ r ∈ db2.rows, r.id = j → r.status ≠ Status.pending) →
        markInProgress db2 j w now = (db2, false)) := by
  have hsub : (selectPendingForBucketAndFolder db.rows b f limit).Sublist db.rows :=
    (List.take_sublist _ _).trans (List.filter_sublist _)
  have hselpw : (selectPendingForBucketAndFolder db.rows b f limit).Pairwise
      (fun x y => x.id < y.id) := hwf.sublist hsub
  have hmem : ∀ r ∈ selectPendingForBucketAndFolder db.rows b f limit,
      r ∈ db.rows ∧ r.status = Status.pending := by
    intro r hr
    exact ⟨hsub.subset hr, (selectPending_folder db.rows b f limit r hr).1⟩
  obtain ⟨hclaimed, hrows⟩ :=
    claimLoop_all_succeed w now (selectPendingForBucketAndFolder db.rows b f limit)
      db hmem hselpw hwf
  simp only [claimPendingForBucketAndFolderTransaction]
  refine ⟨?_, ?_, hclaimed, ?_, ?_, ?_, ?_⟩
  · rw [hclaimed, List.length_map]
    exact List.length_take_le _ _
  · rw [hclaimed]
    exact pairwise_ids_map _ _ (fun x => rfl) hselpw
  · intro c hc
    rw [hclaimed] at hc
    rcases List.mem_map.mp hc with ⟨r, hrsel, rfl⟩
    obtain ⟨hr_mem, hr_pend⟩ := hmem r hrsel
    obtain ⟨_, hr_b, hr_f⟩ := selectPending_folder db.rows b f limit r hrsel
    refine ⟨r, hr_mem, hr_pend, hr_b, hr_f, rfl, ?_⟩
    rw [hrows]
    have hany : ((selectPendingForBucketAndFolder db.rows b f limit).any
        (fun s => s.id == r.id)) = true := by
      rw [List.any_eq_true]
      exact ⟨r, hrsel, by simp⟩
    have : (fun x => if ((selectPendingForBucketAndFolder db.rows b f limit).any
        (fun s => s.id == x.id)) = true then stampRow w now x else x) r = stampRow w now r := by
      simp only [hany, if_true]
    rw [← this]
    exact List.mem_map_of_mem _ hr_mem
  · intro x hx hnone
    rw [hrows]
    have hany : ((selectPendingForBucketAndFolder db.rows b f limit).any
        (fun s => s.id == x.id)) = false := by
      rw [List.any_eq_false]
      intro s hs
      have hc : claimedView w s
          ∈ (claimLoop w now db (selectPendingForBucketAndFolder db.rows b f limit)).2 := by
        rw [hclaimed]
        exact List.mem_map_of_mem _ hs
      have := hnone (claimedView w s) hc
      simp [claimedView] at this ⊢
      omega
    exact mem_map_fix hx (by simp [hany])
  · intro r
    simp [stampRow, claimedView]
  · intro db2 j hno
    have hch : (db2.rows.any (fun r => r.id = j && r.status = Status.pending)) = false := by
      rw [List.any_eq_false]
      intro r hr
      simp only [Bool.and_eq_true, decide_eq_true_eq, not_and]
      intro hid
      exact hno r hr hid
    have hmap : db2.rows.map (fun r =>
        if r.id = j && r.status = Status.pending then stampRow w now r else r) = db2.rows := by
      refine map_self_of_fix _ _ ?_
      intro x hx
      by_cases hid : x.id = j
      · simp [hid, hno x hx hid]
      · simp [hid]
    simp only [markInProgress, hch, hmap]

/-- Concrete run of C4 on the one-pending-row queue: the transaction
claims exactly the one pending row of bucket 1, folder `/S`, within the
limit. -/
theorem claim_spec_witness :
    (claimPendingForBucketAndFolderTransaction pendingDB 1 "/S" 2 5 6).2
        = [claimedView 5 baseRow]
    ∧ (claimPendingForBucketAndFolderTransaction pendingDB 1 "/S" 2 5 6).2.length ≤ 2 := by
  have h := claim_spec pendingDB 1 "/S" 2 5 6 (by decide)
  exact ⟨h.2.2.1.trans (by decide), h.1⟩

/-! ## C2: hash-pair consistency -/

/-- C2 counterexample: on a queue holding one conflict row (hashes "aaa"
and "bbb"), resolve-conflict with action `skip` produces a `completed` row
whose hashes still differ — `resolveConflictSkip` only rewrites `status`,
`completed_at` and `updated_at` — so hash-pair consistency does not
survive the skip resolution the claim explicitly includes. -/
theorem hash_pair_violated_by_skip :
    HashPairInv conflictDB.rows
    ∧ ¬ HashPairInv (resolveConflict conflictDB 1 Action.skip 5).rows := by
  constructor
  · intro r hr
    simp only [conflictDB, List.mem_singleton] at hr
    subst hr
    refine ⟨?_, ?_⟩ <;> intro h <;> simp_all [conflictRow, baseRow]
  · intro hinv
    have hmem : resolveSkipRow 5 conflictRow ∈ (resolveConflict conflictDB 1 Action.skip 5).rows := by
      rw [resolveConflict_rows]
      refine List.mem_map.mpr ⟨conflictRow, by simp [conflictDB], ?_⟩
      simp [conflictRow, baseRow, resolveActionRow]
    have h := (hinv _ hmem).1 (by simp [resolveSkipRow])
    simp [resolveSkipRow, conflictRow, baseRow] at h

theorem resolveAllConflicts_rows (db : DB) (a : Action) (now : Nat) :
    (resolveAllConflicts db a now).rows
      = db.rows.map (fun r =>
          if r.status = Status.conflict then resolveActionRow a now r else r) := by
  unfold resolveAllConflicts
  dsimp only
  split
  · simp [adjustStats_rows]
  · rfl

theorem resolveAllConflictsForBucket_rows (db : DB) (b : Nat) (a : Action) (now : Nat) :
    (resolveAllConflictsForBucket db b a now).rows
      = db.rows.map (fun r =>
          if r.status = Status.conflict && r.bucket_id = b then resolveActionRow a now r else r) := by
  unfold resolveAllConflictsForBucket
  dsimp only
  split
  · simp [adjustStats_rows]
  · rfl

theorem retryAllErrors_rows (db : DB) (now : Nat) :
    (retryAllErrors db now).rows
      = db.rows.map (fun r => if r.status = Status.error then retryRow now r else r) := by
  unfold retryAllErrors
  dsimp only
  split
  · simp [adjustStats_rows]
  · rfl

theorem retryAllErrorsForBucket_rows (db : DB) (b : Nat) (now : Nat) :
    (retryAllErrorsForBucket db b now).rows
      = db.rows.map (fun r =>
          if r.status = Status.error && r.bucket_id = b then retryRow now r else r) := by
  unfold retryAllErrorsForBucket
  dsimp only
  split
  · simp [adjustStats_rows]
  · rfl

theorem retryError_rows (db : DB) (i now : Nat) :
    (retryError db i now).rows
      = db.rows.map (fun r =>
          if r.id = i && r.status = Status.error then retryRow now r else r) := by
  unfold retryError
  cases hm : getFileMeta db.rows i with
  | none => rfl
  | some m =>
      by_cases hc : (db.rows.any (fun r => r.id = i && r.status = Status.error)) = true
      · simp [hc, transitionStats_rows]
      · simp [hc]

theorem deleteFilesByBucket_rows (db : DB) (b : Nat) :
    (deleteFilesByBucket db b).rows = db.rows.filter (fun r => !(r.bucket_id = b)) := by
  unfold deleteFilesByBucket
  dsimp only
  split <;> rfl

theorem deleteBucket_rows (db : DB) (b : Nat) :
    (deleteBucket db b).rows = (deleteFilesByBucket db b).rows := rfl

theorem hashInv_map (rows : List FileRow) (f : FileRow → FileRow)
    (h : ∀ r ∈ rows,
      ((f r).status = Status.completed → (f r).source_hash = (f r).destination_hash)
        ∧ ((f r).status = Status.conflict → (f r).source_hash ≠ none
            ∧ (f r).destination_hash ≠ none
            ∧ (f r).source_hash ≠ (f r).destination_hash)) :
    HashPairInv (rows.map f) := by
  intro x hx
  rcases List.mem_map.mp hx with ⟨r, hr, rfl⟩
  exact h r hr

theorem hashInv_sublist {rows rows2 : List FileRow} (hs : rows2.Sublist rows)
    (h : HashPairInv rows) : HashPairInv rows2 := by
  intro x hx
  exact h x (hs.subset hx)

theorem claimLoop_hashInv (w now : Nat) (sel : List FileRow) :
    ∀ db : DB, HashPairInv db.rows → HashPairInv (claimLoop w now db sel).1.rows := by
  induction sel with
  | nil => intro db h; exact h
  | cons row rest ih =>
      intro db h
      unfold claimLoop
      by_cases hc : (markInProgress db row.id w now).2 = true
      · simp only [hc, if_true]
        refine ih _ ?_
        rw [transitionStats_rows]
        show HashPairInv (markInProgress db row.id w now).1.rows
        refine hashInv_map _ _ ?_
        intro r hr
        by_cases hg : (r.id = row.id && r.status = Status.pending) = true
        · simp [hg, stampRow]
        · simp only [hg]
          simp only [Bool.false_eq_true, if_false]
          exact h r hr
      · simp only [Bool.not_eq_true] at hc
        simp only [hc, Bool.false_eq_true, if_false]
        refine ih _ ?_
        show HashPairInv (markInProgress db row.id w now).1.rows
        refine hashInv_map _ _ ?_
        intro r hr
        by_cases hg : (r.id = row.id && r.status = Status.pending) = true
        · simp [hg, stampRow]
        · simp only [hg]
          simp only [Bool.false_eq_true, if_false]
          exact h r hr

theorem addFiles_hashInv (now : Nat) (files : List NewFile) :
    ∀ db : DB, (∀ f ∈ files, f.status ≠ Status.conflict) → HashPairInv db.rows →
      HashPairInv (addFilesTransaction now db files).1.rows := by
  induction files with
  | nil => intro db _ h; exact h
  | cons f rest ih =>
      intro db hv h
      unfold addFilesTransaction
      refine ih _ (fun g hg => hv g (by simp [hg])) ?_
      rw [insertFile_rows]
      split
      · exact h
      · intro x hx
        rcases List.mem_append.mp hx with hx1 | hx2
        · exact h x hx1
        · have hxeq : x = rowOfNewFile (nextId db.rows) now f := by simpa using hx2
          subst hxeq
          refine ⟨fun _ => rfl, fun hc => ?_⟩
          exact absurd (by simpa [rowOfNewFile] using hc) (hv f (by simp))

/-- C2 amended: hash-pair consistency is preserved by every store
operation as the workers and scanner invoke it — commits to `completed`
carry one hash in both fields, commits to `conflict` two distinct
non-null hashes, inserts carry null hashes and never status conflict, and
conflict resolution uses action `overwrite` — while resolve-conflict with
action `skip` instead turns a conflict row into a `completed` row with
its differing hashes retained, which is exactly the exception the
counterexample exhibits. -/
theorem hash_pair_amended (op : StoreOp) (db : DB) (hv : OpHashValid op)
    (hinv : HashPairInv db.rows) :
    HashPairInv (applyOp op db).rows
    ∧ (∀ (now : Nat) (r : FileRow), (resolveSkipRow now r).status = Status.completed
        ∧ (resolveSkipRow now r).source_hash = r.source_hash
        ∧ (resolveSkipRow now r).destination_hash = r.destination_hash) := by
  refine ⟨?_, fun now r => ⟨rfl, rfl, rfl⟩⟩
  cases op with
  | addFiles files now => exact addFiles_hashInv now files db hv hinv
  | claim b f limit w now =>
      exact claimLoop_hashInv w now _ db hinv
  | commit i st e now =>
      show HashPairInv (updateStatus db i st e now).rows
      rw [updateStatus_rows]
      refine hashInv_map _ _ ?_
      intro r hr
      by_cases hid : r.id = i
      · simp only [hid, if_true]
        cases st with
        | completed =>
            obtain ⟨hsh, heq⟩ := hv.1 rfl
            rcases Option.ne_none_iff_exists'.mp hsh with ⟨h1, hh1⟩
            refine ⟨fun _ => ?_, fun hc => ?_⟩
            · simp [updateStatusRow, coalesce, hh1, ← heq]
            · simp [updateStatusRow] at hc
        | conflict =>
            obtain ⟨hs1, hd1, hne⟩ := hv.2 rfl
            rcases Option.ne_none_iff_exists'.mp hs1 with ⟨h1, hh1⟩
            rcases Option.ne_none_iff_exists'.mp hd1 with ⟨h2, hh2⟩
            refine ⟨fun hc => ?_, fun _ => ?_⟩
            · simp [updateStatusRow] at hc
            · simp [updateStatusRow, coalesce, hh1, hh2]
              exact fun hcontra => hne (by rw [hh1, hh2, hcontra])
        | pending =>
            refine ⟨fun hc => ?_, fun hc => ?_⟩ <;> simp [updateStatusRow] at hc
        | in_progress =>
            refine ⟨fun hc => ?_, fun hc => ?_⟩ <;> simp [updateStatusRow] at hc
        | error =>
            refine ⟨fun hc => ?_, fun hc => ?_⟩ <;> simp [updateStatusRow] at hc
      · simp only [hid, if_false]
        exact hinv r hr
  | resolve i a now =>
      show HashPairInv (resolveConflict db i a now).rows
      rw [resolveConflict_rows]
      refine hashInv_map _ _ ?_
      intro r hr
      by_cases hg : (r.id = i && r.status = Status.conflict) = true
      · have ha : a = Action.overwrite := hv
        subst ha
        simp [hg, resolveActionRow, resolveOverwriteRow]
      · simp only [hg, Bool.false_eq_true, if_false]
        exact hinv r hr
  | resolveAll a now =>
      show HashPairInv (resolveAllConflicts db a now).rows
      have ha : a = Action.overwrite := hv
      subst ha
      rw [resolveAllConflicts_rows]
      refine hashInv_map _ _ ?_
      intro r hr
      by_cases hg : r.status = Status.conflict
      · simp [hg, resolveActionRow, resolveOverwriteRow]
      · rw [if_neg hg]
        exact hinv r hr
  | resolveAllForBucket b a now =>
      show HashPairInv (resolveAllConflictsForBucket db b a now).rows
      have ha : a = Action.overwrite := hv
      subst ha
      rw [resolveAllConflictsForBucket_rows]
      refine hashInv_map _ _ ?_
      intro r hr
      by_cases hg : (r.status = Status.conflict && r.bucket_id = b) = true
      · simp [hg, resolveActionRow, resolveOverwriteRow]
      · simp only [hg, Bool.false_eq_true, if_false]
        exact hinv r hr
  | retry i now =>
      show HashPairInv (retryError db i now).rows
      rw [retryError_rows]
      refine hashInv_map _ _ ?_
      intro r hr
      by_cases hg : (r.id = i && r.status = Status.error) = true
      · simp [hg, retryRow]
      · simp only [hg, Bool.false_eq_true, if_false]
        exact hinv r hr
  | retryAll now =>
      show HashPairInv (retryAllErrors db now).rows
      rw [retryAllErrors_rows]
      refine hashInv_map _ _ ?_
      intro r hr
      by_cases hg : r.status = Status.error
      · simp [hg, retryRow]
      · simp only [hg, if_false]
        exact hinv r hr
  | retryAllForBucket b now =>
      show HashPairInv (retryAllErrorsForBucket db b now).rows
      rw [retryAllErrorsForBucket_rows]
      refine hashInv_map _ _ ?_
      intro r hr
      by_cases hg : (r.status = Status.error && r.bucket_id = b) = true
      · simp [hg, retryRow]
      · simp only [hg, Bool.false_eq_true, if_false]
        exact hinv r hr
  | deleteFiles b =>
      show HashPairInv (deleteFilesByBucket db b).rows
      rw [deleteFilesByBucket_rows]
      exact hashInv_sublist (List.filter_sublist _) hinv
  | newBucket b => exact hinv
  | dropBucket b =>
      show HashPairInv (deleteBucket db b).rows
      rw [deleteBucket_rows, deleteFilesByBucket_rows]
      exact hashInv_sublist (List.filter_sublist _) hinv

/-- Concrete run of the amended C2 on the one-conflict-row queue: the
overwrite resolution preserves hash-pair consistency. -/
theorem hash_pair_amended_witness :
    HashPairInv (applyOp (StoreOp.resolve 1 Action.overwrite 5) conflictDB).rows
    ∧ (resolveSkipRow 5 conflictRow).source_hash = conflictRow.source_hash := by
  have h := hash_pair_amended (StoreOp.resolve 1 Action.overwrite 5) conflictDB rfl
    (by
      intro r hr
      simp only [conflictDB, List.mem_singleton] at hr
      subst hr
      refine ⟨?_, ?_⟩ <;> intro hx <;> simp_all [conflictRow, baseRow])
  exact ⟨h.1, (h.2 5 conflictRow).2.1⟩

/-! ## C5: ledger fidelity — aggregate helpers -/

theorem Stats.get_adjust (s : Stats) (st st2 : Status) (dc ds : Int) :
    (s.adjust st dc ds).get st2
      = (if st2 = st then ⟨(s.get st).count + dc, (s.get st).totalSize + ds⟩ else s.get st2) := by
  cases st <;> cases st2 <;> simp [Stats.adjust, Stats.get]

theorem Stats.get_empty (st : Status) : emptyStats.get st = ⟨0, 0⟩ := by
  cases st <;> rfl

theorem ind_nonneg (b : Option Nat) (st : Status) (r : FileRow) : 0 ≤ ind b st r := by
  unfold ind
  split <;> omega

theorem truthCount_nonneg (rows : List FileRow) (b : Option Nat) (st : Status) :
    0 ≤ truthCount rows b st := by
  induction rows with
  | nil => simp [truthCount]
  | cons a t ih =>
      have := ind_nonneg b st a
      simp only [truthCount, List.map_cons, List.sum_cons]
      simp only [truthCount] at ih
      omega

theorem truthCount_cons (a : FileRow) (t : List FileRow) (b : Option Nat) (st : Status) :
    truthCount (a :: t) b st = ind b st a + truthCount t b st := by
  simp [truthCount]

theorem truthSize_cons (a : FileRow) (t : List FileRow) (b : Option Nat) (st : Status) :
    truthSize (a :: t) b st = indSize b st a + truthSize t b st := by
  simp [truthSize]

theorem truthCount_append (rows ext : List FileRow) (b : Option Nat) (st : Status) :
    truthCount (rows ++ ext) b st = truthCount rows b st + truthCount ext b st := by
  simp [truthCount]

theorem truthSize_append (rows ext : List FileRow) (b : Option Nat) (st : Status) :
    truthSize (rows ++ ext) b st = truthSize rows b st + truthSize ext b st := by
  simp [truthSize]

/-- A cell with zero count has no member rows, hence zero size as well. -/
theorem truthCount_zero (rows : List FileRow) (b : Option Nat) (st : Status)
    (h : truthCount rows b st = 0) :
    (∀ r ∈ rows, ¬(inScope b r = true ∧ r.status = st)) ∧ truthSize rows b st = 0 := by
  induction rows with
  | nil => exact ⟨by simp, by simp [truthSize]⟩
  | cons a t ih =>
      rw [truthCount_cons] at h
      have h1 := ind_nonneg b st a
      have h2 := truthCount_nonneg t b st
      have ha : ind b st a = 0 := by omega
      have ht : truthCount t b st = 0 := by omega
      obtain ⟨iht, ihs⟩ := ih ht
      have hag : ¬(inScope b a = true ∧ a.status = st) := by
        intro ⟨hx, hy⟩
        simp [ind, hx, hy] at ha
      refine ⟨?_, ?_⟩
      · intro r hr
        rcases List.mem_cons.mp hr with rfl | hrt
        · exact hag
        · exact iht r hrt
      · rw [truthSize_cons, ihs]
        have : indSize b st a = 0 := by
          unfold indSize
          rw [if_neg]
          simp only [Bool.and_eq_true, decide_eq_true_eq, not_and]
          intro hx hy
          exact hag ⟨hx, hy⟩
        omega

/-- Single-row update: a map that fixes every row of another id shifts
each cell by the difference of the indicators of the updated row. -/
theorem truth_map_single (rows : List FileRow)
    (hnd : rows.Pairwise (fun a b => a.id < b.id)) (r0 : FileRow) (hr : r0 ∈ rows)
    (f : FileRow → FileRow) (hfix : ∀ r, r.id ≠ r0.id → f r = r)
    (b : Option Nat) (st : Status) :
    truthCount (rows.map f) b st = truthCount rows b st - ind b st r0 + ind b st (f r0)
    ∧ truthSize (rows.map f) b st = truthSize rows b st - indSize b st r0 + indSize b st (f r0) := by
  constructor
  · have hpt : ∀ r ∈ rows, ind b st (f r)
        = (if r.id = r0.id then (fun x => ind b st (f x)) r else (fun x => ind b st x) r) := by
      intro r _
      by_cases h1 : r.id = r0.id
      · simp [h1]
      · simp [h1, hfix r h1]
    unfold truthCount
    have hmm2 : (rows.map f).map (ind b st) = rows.map (fun r => ind b st (f r)) := by
      rw [List.map_map]
      rfl
    rw [hmm2, List.map_congr_left hpt]
    rw [sum_update_single rows hnd r0 hr _ _]
    ring
  · have hpt : ∀ r ∈ rows, indSize b st (f r)
        = (if r.id = r0.id then (fun x => indSize b st (f x)) r else (fun x => indSize b st x) r) := by
      intro r _
      by_cases h1 : r.id = r0.id
      · simp [h1]
      · simp [h1, hfix r h1]
    unfold truthSize
    have hmm2 : (rows.map f).map (indSize b st) = rows.map (fun r => indSize b st (f r)) := by
      rw [List.map_map]
      rfl
    rw [hmm2, List.map_congr_left hpt]
    rw [sum_update_single rows hnd r0 hr _ _]
    ring

theorem inScope_congr {b : Option Nat} {r r2 : FileRow}
    (hb : r2.bucket_id = r.bucket_id) : inScope b r2 = inScope b r := by
  unfold inScope
  cases b <;> simp [hb]

theorem ind_of_status_ne {b : Option Nat} {st : Status} {r : FileRow}
    (h : ¬ r.status = st) : ind b st r = 0 := by
  unfold ind
  rw [if_neg]
  simp [h]

theorem indSize_of_status_ne {b : Option Nat} {st : Status} {r : FileRow}
    (h : ¬ r.status = st) : indSize b st r = 0 := by
  unfold indSize
  rw [if_neg]
  simp [h]

theorem ind_bulk_step (g : FileRow → FileRow) (a τ : Status)
    (hgs : ∀ r, r.status = a → (g r).status = τ)
    (hgb : ∀ r, (g r).bucket_id = r.bucket_id)
    (hτ : τ ≠ a) (b : Option Nat) (st : Status) (r : FileRow) :
    ind b st (if r.status = a then g r else r)
      = ind b st r - (if st = a then ind b a r else 0) + (if st = τ then ind b a r else 0) := by
  by_cases hra : r.status = a
  · have hst' := hgs r hra
    simp only [hra, if_true]
    unfold ind
    rw [inScope_congr (hgb r)]
    by_cases hsc : inScope b r = true
    · simp only [hsc, Bool.true_and, hst', hra]
      split_ifs <;> simp_all
    · simp only [Bool.not_eq_true] at hsc
      simp [hsc]
  · have h0 : ind b a r = 0 := ind_of_status_ne hra
    simp only [hra, if_false, h0]
    simp

theorem indSize_bulk_step (g : FileRow → FileRow) (a τ : Status)
    (hgs : ∀ r, r.status = a → (g r).status = τ)
    (hgb : ∀ r, (g r).bucket_id = r.bucket_id)
    (hsz : ∀ r, (g r).file_size = r.file_size)
    (hτ : τ ≠ a) (b : Option Nat) (st : Status) (r : FileRow) :
    indSize b st (if r.status = a then g r else r)
      = indSize b st r - (if st = a then indSize b a r else 0)
        + (if st = τ then indSize b a r else 0) := by
  by_cases hra : r.status = a
  · have hst' := hgs r hra
    simp only [hra, if_true]
    unfold indSize
    rw [inScope_congr (hgb r)]
    by_cases hsc : inScope b r = true
    · simp only [hsc, Bool.true_and, hst', hra, hsz]
      split_ifs <;> simp_all
    · simp only [Bool.not_eq_true] at hsc
      simp [hsc]
  · have h0 : indSize b a r = 0 := indSize_of_status_ne hra
    simp only [hra, if_false, h0]
    simp

/-- Global bulk update (`WHERE status = a`): every cell moves by the full
`a`-cell mass of its scope. -/
theorem truth_map_bulk_all (rows : List FileRow) (g : FileRow → FileRow) (a τ : Status)
    (hgs : ∀ r, r.status = a → (g r).status = τ)
    (hgb : ∀ r, (g r).bucket_id = r.bucket_id)
    (hsz : ∀ r, (g r).file_size = r.file_size)
    (hτ : τ ≠ a) (b : Option Nat) (st : Status) :
    truthCount (rows.map (fun r => if r.status = a then g r else r)) b st
      = truthCount rows b st - (if st = a then truthCount rows b a else 0)
        + (if st = τ then truthCount rows b a else 0)
    ∧ truthSize (rows.map (fun r => if r.status = a then g r else r)) b st
      = truthSize rows b st - (if st = a then truthSize rows b a else 0)
        + (if st = τ then truthSize rows b a else 0) := by
  induction rows with
  | nil => simp [truthCount, truthSize]
  | cons r t ih =>
      obtain ⟨ih1, ih2⟩ := ih
      constructor
      · simp only [List.map_cons, truthCount_cons, ih1,
          ind_bulk_step g a τ hgs hgb hτ b st r]
        split_ifs <;> (try simp_all) <;> (try omega)
      · simp only [List.map_cons, truthSize_cons, ih2,
          indSize_bulk_step g a τ hgs hgb hsz hτ b st r]
        split_ifs <;> (try simp_all) <;> (try omega)

theorem ind_bulk_bucket_step (g : FileRow → FileRow) (a τ : Status) (B : Nat)
    (hgs : ∀ r, r.status = a → (g r).status = τ)
    (hgb : ∀ r, (g r).bucket_id = r.bucket_id)
    (hτ : τ ≠ a) (b : Option Nat) (st : Status) (r : FileRow) :
    ind b st (if r.status = a && r.bucket_id = B then g r else r)
      = ind b st r
        - (if st = a then (if b = none ∨ b = some B then ind (some B) a r else 0) else 0)
        + (if st = τ then (if b = none ∨ b = some B then ind (some B) a r else 0) else 0) := by
  by_cases hm : (r.status = a && r.bucket_id = B) = true
  · simp only [Bool.and_eq_true, decide_eq_true_eq] at hm
    obtain ⟨hra, hrB⟩ := hm
    have hst' := hgs r hra
    have hBa : ind (some B) a r = 1 := by
      unfold ind inScope
      simp [hrB, hra]
    rw [if_pos (by simp [hra, hrB])]
    unfold ind inScope
    cases b with
    | none =>
        simp only [hst', hra, hBa, Bool.true_and]
        split_ifs <;> simp_all
    | some x =>
        by_cases hx : x = B
        · subst hx
          simp only [hst', hra, hgb, hrB]
          split_ifs <;> simp_all
        · have hx2 : ¬ (some x = some B) := by simp [hx]
          simp only [hst', hra, hgb, hrB]
          split_ifs <;> simp_all
  · rw [if_neg hm]
    have hz : ind (some B) a r = 0 := by
      unfold ind inScope
      rw [if_neg]
      intro hcontra
      simp only [Bool.and_eq_true, decide_eq_true_eq] at hcontra
      exact hm (by simp [hcontra.1, hcontra.2])
    rw [hz]
    split_ifs <;> simp

theorem indSize_bulk_bucket_step (g : FileRow → FileRow) (a τ : Status) (B : Nat)
    (hgs : ∀ r, r.status = a → (g r).status = τ)
    (hgb : ∀ r, (g r).bucket_id = r.bucket_id)
    (hsz : ∀ r, (g r).file_size = r.file_size)
    (hτ : τ ≠ a) (b : Option Nat) (st : Status) (r : FileRow) :
    indSize b st (if r.status = a && r.bucket_id = B then g r else r)
      = indSize b st r
        - (if st = a then (if b = none ∨ b = some B then indSize (some B) a r else 0) else 0)
        + (if st = τ then (if b = none ∨ b = some B then indSize (some B) a r else 0) else 0) := by
  by_cases hm : (r.status = a && r.bucket_id = B) = true
  · simp only [Bool.and_eq_true, decide_eq_true_eq] at hm
    obtain ⟨hra, hrB⟩ := hm
    have hst' := hgs r hra
    have hBa : indSize (some B) a r = (r.file_size : Int) := by
      unfold indSize inScope
      simp [hrB, hra]
    rw [if_pos (by simp [hra, hrB])]
    unfold indSize inScope
    cases b with
    | none =>
        simp only [hst', hra, hBa, Bool.true_and, hsz]
        split_ifs <;> simp_all
    | some x =>
        by_cases hx : x = B
        · subst hx
          simp only [hst', hra, hgb, hrB, hsz]
          split_ifs <;> simp_all
        · have hx2 : ¬ (some x = some B) := by simp [hx]
          simp only [hst', hra, hgb, hrB, hsz]
          split_ifs <;> simp_all
  · rw [if_neg hm]
    have hz : indSize (some B) a r = 0 := by
      unfold indSize inScope
      rw [if_neg]
      intro hcontra
      simp only [Bool.and_eq_true, decide_eq_true_eq] at hcontra
      exact hm (by simp [hcontra.1, hcontra.2])
    rw [hz]
    split_ifs <;> simp

/-- Bucket-scoped bulk update (`WHERE status = a AND bucket_id = B`). -/
theorem truth_map_bulk_bucket (rows : List FileRow) (g : FileRow → FileRow) (a τ : Status) (B : Nat)
    (hgs : ∀ r, r.status = a → (g r).status = τ)
    (hgb : ∀ r, (g r).bucket_id = r.bucket_id)
    (hsz : ∀ r, (g r).file_size = r.file_size)
    (hτ : τ ≠ a) (b : Option Nat) (st : Status) :
    truthCount (rows.map (fun r => if r.status = a && r.bucket_id = B then g r else r)) b st
      = truthCount rows b st
        - (if st = a then (if b = none ∨ b = some B then truthCount rows (some B) a else 0) else 0)
        + (if st = τ then (if b = none ∨ b = some B then truthCount rows (some B) a else 0) else 0)
    ∧ truthSize (rows.map (fun r => if r.status = a && r.bucket_id = B then g r else r)) b st
      = truthSize rows b st
        - (if st = a then (if b = none ∨ b = some B then truthSize rows (some B) a else 0) else 0)
        + (if st = τ then (if b = none ∨ b = some B then truthSize rows (some B) a else 0) else 0) := by
  induction rows with
  | nil => simp [truthCount, truthSize]
  | cons r t ih =>
      obtain ⟨ih1, ih2⟩ := ih
      constructor
      · simp only [List.map_cons, truthCount_cons, ih1,
          ind_bulk_bucket_step g a τ B hgs hgb hτ b st r]
        split_ifs <;> (try simp_all) <;> (try omega)
      · simp only [List.map_cons, truthSize_cons, ih2,
          indSize_bulk_bucket_step g a τ B hgs hgb hsz hτ b st r]
        split_ifs <;> (try simp_all) <;> (try omega)

/-- Deleting all rows of a bucket: effect on every cell. -/
theorem truth_filter_bucket (rows : List FileRow) (B : Nat) (b : Option Nat) (st : Status) :
    truthCount (rows.filter (fun r => !(r.bucket_id = B))) b st
      = truthCount rows b st
        - (if b = none ∨ b = some B then truthCount rows (some B) st else 0)
    ∧ truthSize (rows.filter (fun r => !(r.bucket_id = B))) b st
      = truthSize rows b st
        - (if b = none ∨ b = some B then truthSize rows (some B) st else 0) := by
  induction rows with
  | nil => simp [truthCount, truthSize]
  | cons r t ih =>
      obtain ⟨ih1, ih2⟩ := ih
      by_cases hk : r.bucket_id = B
      · have hfil : (r :: t).filter (fun r => !(r.bucket_id = B))
            = t.filter (fun r => !(r.bucket_id = B)) := by
          simp [List.filter_cons, hk]
        have hsc : ∀ st2 : Status, ind b st2 r
            = (if b = none ∨ b = some B then ind (some B) st2 r else 0) := by
          intro st2
          unfold ind inScope
          cases b with
          | none => simp [hk]
          | some x =>
              by_cases hx : x = B
              · subst hx; simp [hk]
              · simp [hk, hx, Ne.symm hx]
        have hscs : ∀ st2 : Status, indSize b st2 r
            = (if b = none ∨ b = some B then indSize (some B) st2 r else 0) := by
          intro st2
          unfold indSize inScope
          cases b with
          | none => simp [hk]
          | some x =>
              by_cases hx : x = B
              · subst hx; simp [hk]
              · simp [hk, hx, Ne.symm hx]
        constructor
        · rw [hfil, truthCount_cons, truthCount_cons, ih1, hsc st]
          split_ifs <;> (try simp_all) <;> (try omega)
        · rw [hfil, truthSize_cons, truthSize_cons, ih2, hscs st]
          split_ifs <;> (try simp_all) <;> (try omega)
      · have hfil : (r :: t).filter (fun r => !(r.bucket_id = B))
            = r :: t.filter (fun r => !(r.bucket_id = B)) := by
          simp [List.filter_cons, hk]
        have hz : ind (some B) st r = 0 := by
          unfold ind inScope
          rw [if_neg]
          simp [hk]
        have hzs : indSize (some B) st r = 0 := by
          unfold indSize inScope
          rw [if_neg]
          simp [hk]
        constructor
        · rw [hfil, truthCount_cons, truthCount_cons, truthCount_cons, ih1, hz]
          split_ifs <;> (try simp_all) <;> (try omega)
        · rw [hfil, truthSize_cons, truthSize_cons, truthSize_cons, ih2, hzs]
          split_ifs <;> (try simp_all) <;> (try omega)

theorem ind_eval (b : Option Nat) (st : Status) (r : FileRow) :
    ind b st r
      = (if st = r.status then (if b = none ∨ b = some r.bucket_id then 1 else 0) else 0) := by
  unfold ind inScope
  cases b with
  | none => split_ifs <;> simp_all
  | some x => split_ifs <;> simp_all

theorem indSize_eval (b : Option Nat) (st : Status) (r : FileRow) :
    indSize b st r
      = (if st = r.status then (if b = none ∨ b = some r.bucket_id then (r.file_size : Int) else 0)
         else 0) := by
  unfold indSize inScope
  cases b with
  | none => split_ifs <;> simp_all
  | some x => split_ifs <;> simp_all

/-! ## C5: ledger fidelity — ledger-side helpers -/

theorem adjustStats_global (db : DB) (b : Option Nat) (st : Status) (dc ds : Int) :
    (adjustStats db b st dc ds).globalStats = db.globalStats.adjust st dc ds := by
  cases b <;> rfl

theorem adjustStats_bucketStats_none (db : DB) (st : Status) (dc ds : Int) :
    (adjustStats db none st dc ds).bucketStats = db.bucketStats := rfl

theorem adjustStats_bucketStats_some (db : DB) (x : Nat) (st : Status) (dc ds : Int) :
    (adjustStats db (some x) st dc ds).bucketStats
      = db.bucketStats.map (fun p => if p.1 = x then (p.1, p.2.adjust st dc ds) else p) := rfl

theorem transitionStats_global (db : DB) (B : Nat) (a τ : Status) (s : Nat) :
    (transitionStats db B a τ s).globalStats
      = (db.globalStats.adjust a (-1) (-(s : Int))).adjust τ 1 (s : Int) := by
  simp [transitionStats, adjustStats_global]

theorem transitionStats_bucketStats (db : DB) (B : Nat) (a τ : Status) (s : Nat) :
    (transitionStats db B a τ s).bucketStats
      = db.bucketStats.map (fun p =>
          if p.1 = B then (p.1, (p.2.adjust a (-1) (-(s : Int))).adjust τ 1 (s : Int)) else p) := by
  unfold transitionStats
  rw [adjustStats_bucketStats_some, adjustStats_bucketStats_some, List.map_map]
  refine List.map_congr_left ?_
  intro p _
  by_cases hp : p.1 = B
  · simp [hp]
  · simp [hp]

/-- Accuracy core: the rows change by the single-transition delta
`(B, a, sz) → (B, τ, sz)` and the ledger by `transitionStats`. -/
theorem acc_transition (db : DB) (rows2 : List FileRow) (B : Nat) (a τ : Status) (sz : Nat)
    (hacc : LedgerAccurate db)
    (hdelta : ∀ (b : Option Nat) (st : Status),
        truthCount rows2 b st = truthCount db.rows b st
            - (if st = a then (if b = none ∨ b = some B then 1 else 0) else 0)
            + (if st = τ then (if b = none ∨ b = some B then 1 else 0) else 0)
        ∧ truthSize rows2 b st = truthSize db.rows b st
            - (if st = a then (if b = none ∨ b = some B then (sz : Int) else 0) else 0)
            + (if st = τ then (if b = none ∨ b = some B then (sz : Int) else 0) else 0))
    (hbk : ∀ r ∈ rows2, r.bucket_id ∈ db.bucketStats.map Prod.fst) :
    LedgerAccurate (transitionStats { db with rows := rows2 } B a τ sz) := by
  obtain ⟨hg, hb, hcov⟩ := hacc
  refine ⟨?_, ?_, ?_⟩
  · intro st
    rw [transitionStats_global, transitionStats_rows]
    rw [Stats.get_adjust, Stats.get_adjust, Stats.get_adjust]
    obtain ⟨hdc, hds⟩ := hdelta none st
    have h1 := hg st
    have h2 := hg a
    have h3 := hg τ
    rw [hdc, hds]
    split_ifs <;> (try simp_all [Stats.get_adjust]) <;> (try omega)
  · intro p hp st
    rw [transitionStats_bucketStats] at hp
    rcases List.mem_map.mp hp with ⟨q, hq, rfl⟩
    rw [transitionStats_rows]
    by_cases hqB : q.1 = B
    · subst hqB
      rw [if_pos rfl]
      dsimp only
      rw [Stats.get_adjust, Stats.get_adjust]
      obtain ⟨hdc, hds⟩ := hdelta (some q.1) st
      have h1 := hb q hq st
      have h2 := hb q hq a
      have h3 := hb q hq τ
      have hscope : (some q.1 = none ∨ some q.1 = some q.1) := by simp
      rw [if_pos hscope] at hdc hds
      rw [hdc, hds]
      split_ifs <;> (try simp_all [Stats.get_adjust]) <;> (try omega)
    · rw [if_neg hqB]
      obtain ⟨hdc, hds⟩ := hdelta (some q.1) st
      have hscope : ¬(some q.1 = none ∨ some q.1 = some B) := by simp [hqB]
      rw [if_neg hscope] at hdc
      rw [if_neg hscope] at hds
      simp only [ite_self, sub_zero, add_zero] at hdc hds
      rw [hdc, hds]
      exact hb q hq st
  · intro r hr
    rw [transitionStats_rows] at hr
    rw [transitionStats_keys]
    exact hbk r hr

/-- Accuracy core: a rows change that moves no cell needs no ledger
adjustment. -/
theorem acc_same (db : DB) (rows2 : List FileRow) (hacc : LedgerAccurate db)
    (hdelta : ∀ (b : Option Nat) (st : Status),
        truthCount rows2 b st = truthCount db.rows b st
          ∧ truthSize rows2 b st = truthSize db.rows b st)
    (hbk : ∀ r ∈ rows2, r.bucket_id ∈ db.bucketStats.map Prod.fst) :
    LedgerAccurate { db with rows := rows2 } := by
  obtain ⟨hg, hb, _⟩ := hacc
  refine ⟨?_, ?_, ?_⟩
  · intro st
    show db.globalStats.get st = _
    rw [show ({ db with rows := rows2 } : DB).rows = rows2 from rfl,
      (hdelta none st).1, (hdelta none st).2]
    exact hg st
  · intro p hp st
    rw [show ({ db with rows := rows2 } : DB).rows = rows2 from rfl,
      (hdelta (some p.1) st).1, (hdelta (some p.1) st).2]
    exact hb p hp st
  · intro r hr
    exact hbk r hr

/-- Accuracy core: appending one fresh row and crediting its cell. -/
theorem acc_insert (db : DB) (x : FileRow) (hacc : LedgerAccurate db)
    (hkey : x.bucket_id ∈ db.bucketStats.map Prod.fst) :
    LedgerAccurate
      (adjustStats { db with rows := db.rows ++ [x] } (some x.bucket_id) x.status 1
        (x.file_size : Int)) := by
  obtain ⟨hg, hb, hcov⟩ := hacc
  have hx1 : ∀ b st, truthCount [x] b st = ind b st x := by
    intro b st
    simp [truthCount]
  have hx2 : ∀ b st, truthSize [x] b st = indSize b st x := by
    intro b st
    simp [truthSize]
  refine ⟨?_, ?_, ?_⟩
  · intro st
    rw [adjustStats_global, adjustStats_rows, Stats.get_adjust]
    show _ = Entry.mk (truthCount (db.rows ++ [x]) none st) (truthSize (db.rows ++ [x]) none st)
    rw [truthCount_append, truthSize_append, hx1, hx2, ind_eval, indSize_eval]
    have h1 := hg st
    have h2 := hg x.status
    split_ifs <;> (try simp_all) <;> (try omega)
  · intro p hp st
    rw [adjustStats_bucketStats_some] at hp
    rcases List.mem_map.mp hp with ⟨q, hq, rfl⟩
    rw [adjustStats_rows]
    by_cases hqx : q.1 = x.bucket_id
    · rw [if_pos hqx]
      show _ = Entry.mk (truthCount (db.rows ++ [x]) (some q.1) st)
        (truthSize (db.rows ++ [x]) (some q.1) st)
      rw [Stats.get_adjust, truthCount_append, truthSize_append, hx1, hx2, ind_eval, indSize_eval]
      have h1 := hb q hq st
      have h2 := hb q hq x.status
      have hsc : (some q.1 = none ∨ some q.1 = some x.bucket_id) := by simp [hqx]
      split_ifs <;> (try simp_all) <;> (try omega)
    · rw [if_neg hqx]
      show _ = Entry.mk (truthCount (db.rows ++ [x]) (some q.1) st)
        (truthSize (db.rows ++ [x]) (some q.1) st)
      rw [truthCount_append, truthSize_append, hx1, hx2, ind_eval, indSize_eval]
      have h1 := hb q hq st
      have hsc : ¬(some q.1 = none ∨ some q.1 = some x.bucket_id) := by simp [hqx]
      split_ifs <;> (try simp_all) <;> (try omega)
  · intro r hr
    rw [adjustStats_keys]
    rw [adjustStats_rows] at hr
    rcases List.mem_append.mp hr with h1 | h2
    · exact hcov r h1
    · rw [List.mem_singleton.mp h2]
      exact hkey

/-! ## C5: ledger fidelity — component shapes of the bulk operations -/

theorem resolveAllConflicts_global (db : DB) (act : Action) (now : Nat)
    (hc : 0 < truthCount db.rows none Status.conflict) :
    (resolveAllConflicts db act now).globalStats
      = (db.globalStats.adjust Status.conflict (-(truthCount db.rows none Status.conflict))
          (-(truthSize db.rows none Status.conflict))).adjust (targetStatus act)
          (truthCount db.rows none Status.conflict) (truthSize db.rows none Status.conflict) := by
  unfold resolveAllConflicts
  dsimp only
  rw [if_pos hc]
  simp [adjustStats_global]

theorem resolveAllConflicts_bucketStats (db : DB) (act : Action) (now : Nat)
    (hc : 0 < truthCount db.rows none Status.conflict) :
    (resolveAllConflicts db act now).bucketStats
      = db.bucketStats.map (fun p => (p.1, p.2.moveAll Status.conflict (targetStatus act))) := by
  unfold resolveAllConflicts
  dsimp only
  rw [if_pos hc]
  simp [adjustStats_bucketStats_none]

theorem resolveAllConflicts_stats_noop (db : DB) (act : Action) (now : Nat)
    (hc : ¬ 0 < truthCount db.rows none Status.conflict) :
    (resolveAllConflicts db act now).globalStats = db.globalStats
      ∧ (resolveAllConflicts db act now).bucketStats = db.bucketStats
      ∧ (resolveAllConflicts db act now).buckets = db.buckets := by
  unfold resolveAllConflicts
  dsimp only
  rw [if_neg hc]
  exact ⟨rfl, rfl, rfl⟩

theorem resolveAllConflicts_buckets (db : DB) (act : Action) (now : Nat) :
    (resolveAllConflicts db act now).buckets = db.buckets := by
  unfold resolveAllConflicts
  dsimp only
  split
  · simp [adjustStats_buckets]
  · rfl

theorem retryAllErrors_global (db : DB) (now : Nat)
    (hc : 0 < truthCount db.rows none Status.error) :
    (retryAllErrors db now).globalStats
      = (db.globalStats.adjust Status.error (-(truthCount db.rows none Status.error))
          (-(truthSize db.rows none Status.error))).adjust Status.pending
          (truthCount db.rows none Status.error) (truthSize db.rows none Status.error) := by
  unfold retryAllErrors
  dsimp only
  rw [if_pos hc]
  simp [adjustStats_global]

theorem retryAllErrors_bucketStats (db : DB) (now : Nat)
    (hc : 0 < truthCount db.rows none Status.error) :
    (retryAllErrors db now).bucketStats
      = db.bucketStats.map (fun p => (p.1, p.2.moveAll Status.error Status.pending)) := by
  unfold retryAllErrors
  dsimp only
  rw [if_pos hc]
  simp [adjustStats_bucketStats_none]

theorem retryAllErrors_stats_noop (db : DB) (now : Nat)
    (hc : ¬ 0 < truthCount db.rows none Status.error) :
    (retryAllErrors db now).globalStats = db.globalStats
      ∧ (retryAllErrors db now).bucketStats = db.bucketStats
      ∧ (retryAllErrors db now).buckets = db.buckets := by
  unfold retryAllErrors
  dsimp only
  rw [if_neg hc]
  exact ⟨rfl, rfl, rfl⟩

theorem retryAllErrors_buckets (db : DB) (now : Nat) :
    (retryAllErrors db now).buckets = db.buckets := by
  unfold retryAllErrors
  dsimp only
  split
  · simp [adjustStats_buckets]
  · rfl

/-- Accuracy of one per-bucket ledger entry after a global bulk move,
given the cell deltas of its scope. -/
theorem acc_bulk_entry (s : Stats) (k : Nat) (rowsOld rows2 : List FileRow) (a τ : Status)
    (hτ : τ ≠ a)
    (hs : ∀ st, s.get st = ⟨truthCount rowsOld (some k) st, truthSize rowsOld (some k) st⟩)
    (hdelta : ∀ st, truthCount rows2 (some k) st
          = truthCount rowsOld (some k) st
            - (if st = a then truthCount rowsOld (some k) a else 0)
            + (if st = τ then truthCount rowsOld (some k) a else 0)
        ∧ truthSize rows2 (some k) st
          = truthSize rowsOld (some k) st
            - (if st = a then truthSize rowsOld (some k) a else 0)
            + (if st = τ then truthSize rowsOld (some k) a else 0)) :
    ∀ st, (s.moveAll a τ).get st
      = ⟨truthCount rows2 (some k) st, truthSize rows2 (some k) st⟩ := by
  intro st
  unfold Stats.moveAll
  by_cases hpos : 0 < (s.get a).count
  · rw [if_pos hpos, Stats.get_adjust]
    rw [(hdelta st).1, (hdelta st).2]
    have h1 := hs st
    have h2 := hs a
    have h3 := hs τ
    split_ifs <;> (try simp_all [Stats.get_adjust]) <;> (try omega)
  · rw [if_neg hpos]
    have h2 := hs a
    have hz : truthCount rowsOld (some k) a = 0 := by
      have hnn := truthCount_nonneg rowsOld (some k) a
      have hcnt : (s.get a).count = truthCount rowsOld (some k) a := by rw [h2]
      omega
    have hzs := (truthCount_zero rowsOld (some k) a hz).2
    rw [(hdelta st).1, (hdelta st).2, hz, hzs]
    have h1 := hs st
    split_ifs <;> (try simp_all) <;> (try omega)

theorem acc_resolveAllConflicts (db : DB) (act : Action) (now : Nat)
    (hacc : LedgerAccurate db) :
    LedgerAccurate (resolveAllConflicts db act now) := by
  obtain ⟨hg, hb, hcov⟩ := hacc
  have hgs : ∀ r : FileRow, r.status = Status.conflict →
      (resolveActionRow act now r).status = targetStatus act := by
    intro r _
    cases act <;> rfl
  have hgb : ∀ r : FileRow, (resolveActionRow act now r).bucket_id = r.bucket_id := by
    intro r
    cases act <;> rfl
  have hsz : ∀ r : FileRow, (resolveActionRow act now r).file_size = r.file_size := by
    intro r
    cases act <;> rfl
  have hτ : targetStatus act ≠ Status.conflict := by
    cases act <;> simp [targetStatus]
  have hbulk := truth_map_bulk_all db.rows (resolveActionRow act now) Status.conflict
      (targetStatus act) hgs hgb hsz hτ
  have hrows := resolveAllConflicts_rows db act now
  by_cases hc : 0 < truthCount db.rows none Status.conflict
  · refine ⟨?_, ?_, ?_⟩
    · intro st
      rw [resolveAllConflicts_global db act now hc, hrows]
      obtain ⟨hd1, hd2⟩ := hbulk none st
      rw [hd1, hd2, Stats.get_adjust]
      have h1 := hg st
      have h2 := hg Status.conflict
      have h3 := hg (targetStatus act)
      split_ifs <;> (try simp_all [Stats.get_adjust]) <;> (try omega)
    · intro p hp st
      rw [resolveAllConflicts_bucketStats db act now hc] at hp
      rcases List.mem_map.mp hp with ⟨q, hq, rfl⟩
      rw [hrows]
      exact acc_bulk_entry q.2 q.1 db.rows _ Status.conflict (targetStatus act) hτ
        (hb q hq) (fun st2 => hbulk (some q.1) st2) st
    · intro r hr
      rw [hrows] at hr
      rcases List.mem_map.mp hr with ⟨r0, hr0, rfl⟩
      rw [resolveAllConflicts_bucketStats db act now hc, List.map_map]
      have hkeys : (db.bucketStats.map
          (Prod.fst ∘ (fun p => (p.1, p.2.moveAll Status.conflict (targetStatus act)))))
            = db.bucketStats.map Prod.fst := rfl
      rw [hkeys]
      by_cases hrc : r0.status = Status.conflict
      · rw [if_pos hrc, hgb r0]
        exact hcov r0 hr0
      · rw [if_neg hrc]
        exact hcov r0 hr0
  · obtain ⟨hgn, hbn, _⟩ := resolveAllConflicts_stats_noop db act now hc
    have hc0 : truthCount db.rows none Status.conflict = 0 := by
      have := truthCount_nonneg db.rows none Status.conflict
      omega
    obtain ⟨hnone, _⟩ := truthCount_zero db.rows none Status.conflict hc0
    have hmapid : db.rows.map (fun r =>
        if r.status = Status.conflict then resolveActionRow act now r else r) = db.rows := by
      refine map_self_of_fix _ _ ?_
      intro x hx
      rw [if_neg]
      intro hxc
      exact hnone x hx ⟨rfl, hxc⟩
    refine ⟨?_, ?_, ?_⟩
    · intro st
      rw [hgn, hrows, hmapid]
      exact hg st
    · intro p hp st
      rw [hbn] at hp
      rw [hrows, hmapid]
      exact hb p hp st
    · intro r hr
      rw [hrows, hmapid] at hr
      rw [hbn]
      exact hcov r hr

theorem acc_retryAllErrors (db : DB) (now : Nat) (hacc : LedgerAccurate db) :
    LedgerAccurate (retryAllErrors db now) := by
  obtain ⟨hg, hb, hcov⟩ := hacc
  have hgs : ∀ r : FileRow, r.status = Status.error → (retryRow now r).status = Status.pending := by
    intro r _
    rfl
  have hgb : ∀ r : FileRow, (retryRow now r).bucket_id = r.bucket_id := fun r => rfl
  have hsz : ∀ r : FileRow, (retryRow now r).file_size = r.file_size := fun r => rfl
  have hτ : Status.pending ≠ Status.error := by simp
  have hbulk := truth_map_bulk_all db.rows (retryRow now) Status.error Status.pending
      hgs hgb hsz hτ
  have hrows := retryAllErrors_rows db now
  by_cases hc : 0 < truthCount db.rows none Status.error
  · refine ⟨?_, ?_, ?_⟩
    · intro st
      rw [retryAllErrors_global db now hc, hrows]
      obtain ⟨hd1, hd2⟩ := hbulk none st
      rw [hd1, hd2, Stats.get_adjust]
      have h1 := hg st
      have h2 := hg Status.error
      have h3 := hg Status.pending
      split_ifs <;> (try simp_all [Stats.get_adjust]) <;> (try omega)
    · intro p hp st
      rw [retryAllErrors_bucketStats db now hc] at hp
      rcases List.mem_map.mp hp with ⟨q, hq, rfl⟩
      rw [hrows]
      exact acc_bulk_entry q.2 q.1 db.rows _ Status.error Status.pending hτ
        (hb q hq) (fun st2 => hbulk (some q.1) st2) st
    · intro r hr
      rw [hrows] at hr
      rcases List.mem_map.mp hr with ⟨r0, hr0, rfl⟩
      rw [retryAllErrors_bucketStats db now hc, List.map_map]
      have hkeys : (db.bucketStats.map
          (Prod.fst ∘ (fun p => (p.1, p.2.moveAll Status.error Status.pending))))
            = db.bucketStats.map Prod.fst := rfl
      rw [hkeys]
      by_cases hrc : r0.status = Status.error
      · rw [if_pos hrc, hgb r0]
        exact hcov r0 hr0
      · rw [if_neg hrc]
        exact hcov r0 hr0
  · obtain ⟨hgn, hbn, _⟩ := retryAllErrors_stats_noop db now hc
    have hc0 : truthCount db.rows none Status.error = 0 := by
      have := truthCount_nonneg db.rows none Status.error
      omega
    obtain ⟨hnone, _⟩ := truthCount_zero db.rows none Status.error hc0
    have hmapid : db.rows.map (fun r =>
        if r.status = Status.error then retryRow now r else r) = db.rows := by
      refine map_self_of_fix _ _ ?_
      intro x hx
      rw [if_neg]
      intro hxc
      exact hnone x hx ⟨rfl, hxc⟩
    refine ⟨?_, ?_, ?_⟩
    · intro st
      rw [hgn, hrows, hmapid]
      exact hg st
    · intro p hp st
      rw [hbn] at hp
      rw [hrows, hmapid]
      exact hb p hp st
    · intro r hr
      rw [hrows, hmapid] at hr
      rw [hbn]
      exact hcov r hr

theorem resolveAllConflictsForBucket_global (db : DB) (B : Nat) (act : Action) (now : Nat)
    (hc : 0 < truthCount db.rows (some B) Status.conflict) :
    (resolveAllConflictsForBucket db B act now).globalStats
      = (db.globalStats.adjust Status.conflict (-(truthCount db.rows (some B) Status.conflict))
          (-(truthSize db.rows (some B) Status.conflict))).adjust (targetStatus act)
          (truthCount db.rows (some B) Status.conflict)
          (truthSize db.rows (some B) Status.conflict) := by
  unfold resolveAllConflictsForBucket
  dsimp only
  rw [if_pos hc]
  simp [adjustStats_global]

theorem resolveAllConflictsForBucket_bucketStats (db : DB) (B : Nat) (act : Action) (now : Nat)
    (hc : 0 < truthCount db.rows (some B) Status.conflict) :
    (resolveAllConflictsForBucket db B act now).bucketStats
      = db.bucketStats.map (fun p =>
          if p.1 = B then
            (p.1, (p.2.adjust Status.conflict (-(truthCount db.rows (some B) Status.conflict))
              (-(truthSize db.rows (some B) Status.conflict))).adjust (targetStatus act)
              (truthCount db.rows (some B) Status.conflict)
              (truthSize db.rows (some B) Status.conflict))
          else p) := by
  unfold resolveAllConflictsForBucket
  dsimp only
  rw [if_pos hc]
  rw [adjustStats_bucketStats_some, adjustStats_bucketStats_some, List.map_map]
  refine List.map_congr_left ?_
  intro p _
  by_cases hp : p.1 = B
  · simp [hp]
  · simp [hp]

theorem resolveAllConflictsForBucket_stats_noop (db : DB) (B : Nat) (act : Action) (now : Nat)
    (hc : ¬ 0 < truthCount db.rows (some B) Status.conflict) :
    (resolveAllConflictsForBucket db B act now).globalStats = db.globalStats
      ∧ (resolveAllConflictsForBucket db B act now).bucketStats = db.bucketStats
      ∧ (resolveAllConflictsForBucket db B act now).buckets = db.buckets := by
  unfold resolveAllConflictsForBucket
  dsimp only
  rw [if_neg hc]
  exact ⟨rfl, rfl, rfl⟩

theorem resolveAllConflictsForBucket_buckets (db : DB) (B : Nat) (act : Action) (now : Nat) :
    (resolveAllConflictsForBucket db B act now).buckets = db.buckets := by
  unfold resolveAllConflictsForBucket
  dsimp only
  split
  · simp [adjustStats_buckets]
  · rfl

theorem retryAllErrorsForBucket_global (db : DB) (B : Nat) (now : Nat)
    (hc : 0 < truthCount db.rows (some B) Status.error) :
    (retryAllErrorsForBucket db B now).globalStats
      = (db.globalStats.adjust Status.error (-(truthCount db.rows (some B) Status.error))
          (-(truthSize db.rows (some B) Status.error))).adjust Status.pending
          (truthCount db.rows (some B) Status.error)
          (truthSize db.rows (some B) Status.error) := by
  unfold retryAllErrorsForBucket
  dsimp only
  rw [if_pos hc]
  simp [adjustStats_global]

theorem retryAllErrorsForBucket_bucketStats (db : DB) (B : Nat) (now : Nat)
    (hc : 0 < truthCount db.rows (some B) Status.error) :
    (retryAllErrorsForBucket db B now).bucketStats
      = db.bucketStats.map (fun p =>
          if p.1 = B then
            (p.1, (p.2.adjust Status.error (-(truthCount db.rows (some B) Status.error))
              (-(truthSize db.rows (some B) Status.error))).adjust Status.pending
              (truthCount db.rows (some B) Status.error)
              (truthSize db.rows (some B) Status.error))
          else p) := by
  unfold retryAllErrorsForBucket
  dsimp only
  rw [if_pos hc]
  rw [adjustStats_bucketStats_some, adjustStats_bucketStats_some, List.map_map]
  refine List.map_congr_left ?_
  intro p _
  by_cases hp : p.1 = B
  · simp [hp]
  · simp [hp]

theorem retryAllErrorsForBucket_stats_noop (db : DB) (B : Nat) (now : Nat)
    (hc : ¬ 0 < truthCount db.rows (some B) Status.error) :
    (retryAllErrorsForBucket db B now).globalStats = db.globalStats
      ∧ (retryAllErrorsForBucket db B now).bucketStats = db.bucketStats
      ∧ (retryAllErrorsForBucket db B now).buckets = db.buckets := by
  unfold retryAllErrorsForBucket
  dsimp only
  rw [if_neg hc]
  exact ⟨rfl, rfl, rfl⟩

theorem retryAllErrorsForBucket_buckets (db : DB) (B : Nat) (now : Nat) :
    (retryAllErrorsForBucket db B now).buckets = db.buckets := by
  unfold retryAllErrorsForBucket
  dsimp only
  split
  · simp [adjustStats_buckets]
  · rfl

theorem acc_resolveAllConflictsForBucket (db : DB) (B : Nat) (act : Action) (now : Nat)
    (hacc : LedgerAccurate db) :
    LedgerAccurate (resolveAllConflictsForBucket db B act now) := by
  obtain ⟨hg, hb, hcov⟩ := hacc
  have hgs : ∀ r : FileRow, r.status = Status.conflict →
      (resolveActionRow act now r).status = targetStatus act := by
    intro r _
    cases act <;> rfl
  have hgb : ∀ r : FileRow, (resolveActionRow act now r).bucket_id = r.bucket_id := by
    intro r
    cases act <;> rfl
  have hsz : ∀ r : FileRow, (resolveActionRow act now r).file_size = r.file_size := by
    intro r
    cases act <;> rfl
  have hτ : targetStatus act ≠ Status.conflict := by
    cases act <;> simp [targetStatus]
  have hbulk := truth_map_bulk_bucket db.rows (resolveActionRow act now) Status.conflict
      (targetStatus act) B hgs hgb hsz hτ
  have hrows := resolveAllConflictsForBucket_rows db B act now
  by_cases hc : 0 < truthCount db.rows (some B) Status.conflict
  · refine ⟨?_, ?_, ?_⟩
    · intro st
      rw [resolveAllConflictsForBucket_global db B act now hc, hrows]
      obtain ⟨hd1, hd2⟩ := hbulk none st
      rw [if_pos (by simp : ((none : Option Nat) = none ∨ (none : Option Nat) = some B))] at hd1 hd2
      rw [hd1, hd2, Stats.get_adjust]
      have h1 := hg st
      have h2 := hg Status.conflict
      have h3 := hg (targetStatus act)
      split_ifs <;> (try simp_all [Stats.get_adjust]) <;> (try omega)
    · intro p hp st
      rw [resolveAllConflictsForBucket_bucketStats db B act now hc] at hp
      rcases List.mem_map.mp hp with ⟨q, hq, rfl⟩
      rw [hrows]
      obtain ⟨hd1, hd2⟩ := hbulk (some q.1) st
      by_cases hqB : q.1 = B
      · subst hqB
        rw [if_pos rfl]
        dsimp only
        rw [if_pos (by simp : (some q.1 = none ∨ some q.1 = some q.1))] at hd1 hd2
        rw [hd1, hd2, Stats.get_adjust]
        have h1 := hb q hq st
        have h2 := hb q hq Status.conflict
        have h3 := hb q hq (targetStatus act)
        split_ifs <;> (try simp_all [Stats.get_adjust]) <;> (try omega)
      · rw [if_neg hqB]
        rw [if_neg (by simp [hqB] : ¬(some q.1 = none ∨ some q.1 = some B))] at hd1 hd2
        simp only [ite_self, sub_zero, add_zero] at hd1 hd2
        rw [hd1, hd2]
        exact hb q hq st
    · intro r hr
      rw [hrows] at hr
      rcases List.mem_map.mp hr with ⟨r0, hr0, rfl⟩
      rw [resolveAllConflictsForBucket_bucketStats db B act now hc, List.map_map]
      have hkeys : (db.bucketStats.map (Prod.fst ∘ (fun p =>
          if p.1 = B then
            (p.1, (p.2.adjust Status.conflict (-(truthCount db.rows (some B) Status.conflict))
              (-(truthSize db.rows (some B) Status.conflict))).adjust (targetStatus act)
              (truthCount db.rows (some B) Status.conflict)
              (truthSize db.rows (some B) Status.conflict))
          else p))) = db.bucketStats.map Prod.fst := by
        refine List.map_congr_left ?_
        intro p _
        by_cases hp : p.1 = B
        · simp [hp]
        · simp [hp]
      rw [hkeys]
      by_cases hrc : (r0.status = Status.conflict && r0.bucket_id = B) = true
      · rw [if_pos hrc, hgb r0]
        exact hcov r0 hr0
      · rw [if_neg hrc]
        exact hcov r0 hr0
  · obtain ⟨hgn, hbn, _⟩ := resolveAllConflictsForBucket_stats_noop db B act now hc
    have hc0 : truthCount db.rows (some B) Status.conflict = 0 := by
      have := truthCount_nonneg db.rows (some B) Status.conflict
      omega
    obtain ⟨hnone, _⟩ := truthCount_zero db.rows (some B) Status.conflict hc0
    have hmapid : db.rows.map (fun r =>
        if r.status = Status.conflict && r.bucket_id = B then resolveActionRow act now r else r)
          = db.rows := by
      refine map_self_of_fix _ _ ?_
      intro x hx
      rw [if_neg]
      intro hxc
      simp only [Bool.and_eq_true, decide_eq_true_eq] at hxc
      exact hnone x hx ⟨by simp [inScope, hxc.2], hxc.1⟩
    refine ⟨?_, ?_, ?_⟩
    · intro st
      rw [hgn, hrows, hmapid]
      exact hg st
    · intro p hp st
      rw [hbn] at hp
      rw [hrows, hmapid]
      exact hb p hp st
    · intro r hr
      rw [hrows, hmapid] at hr
      rw [hbn]
      exact hcov r hr

theorem acc_retryAllErrorsForBucket (db : DB) (B : Nat) (now : Nat)
    (hacc : LedgerAccurate db) :
    LedgerAccurate (retryAllErrorsForBucket db B now) := by
  obtain ⟨hg, hb, hcov⟩ := hacc
  have hgs : ∀ r : FileRow, r.status = Status.error → (retryRow now r).status = Status.pending := by
    intro r _
    rfl
  have hgb : ∀ r : FileRow, (retryRow now r).bucket_id = r.bucket_id := fun r => rfl
  have hsz : ∀ r : FileRow, (retryRow now r).file_size = r.file_size := fun r => rfl
  have hτ : Status.pending ≠ Status.error := by simp
  have hbulk := truth_map_bulk_bucket db.rows (retryRow now) Status.error Status.pending B
      hgs hgb hsz hτ
  have hrows := retryAllErrorsForBucket_rows db B now
  by_cases hc : 0 < truthCount db.rows (some B) Status.error
  · refine ⟨?_, ?_, ?_⟩
    · intro st
      rw [retryAllErrorsForBucket_global db B now hc, hrows]
      obtain ⟨hd1, hd2⟩ := hbulk none st
      rw [if_pos (by simp : ((none : Option Nat) = none ∨ (none : Option Nat) = some B))] at hd1 hd2
      rw [hd1, hd2, Stats.get_adjust]
      have h1 := hg st
      have h2 := hg Status.error
      have h3 := hg Status.pending
      split_ifs <;> (try simp_all [Stats.get_adjust]) <;> (try omega)
    · intro p hp st
      rw [retryAllErrorsForBucket_bucketStats db B now hc] at hp
      rcases List.mem_map.mp hp with ⟨q, hq, rfl⟩
      rw [hrows]
      obtain ⟨hd1, hd2⟩ := hbulk (some q.1) st
      by_cases hqB : q.1 = B
      · subst hqB
        rw [if_pos rfl]
        dsimp only
        rw [if_pos (by simp : (some q.1 = none ∨ some q.1 = some q.1))] at hd1 hd2
        rw [hd1, hd2, Stats.get_adjust]
        have h1 := hb q hq st
        have h2 := hb q hq Status.error
        have h3 := hb q hq Status.pending
        split_ifs <;> (try simp_all [Stats.get_adjust]) <;> (try omega)
      · rw [if_neg hqB]
        rw [if_neg (by simp [hqB] : ¬(some q.1 = none ∨ some q.1 = some B))] at hd1 hd2
        simp only [ite_self, sub_zero, add_zero] at hd1 hd2
        rw [hd1, hd2]
        exact hb q hq st
    · intro r hr
      rw [hrows] at hr
      rcases List.mem_map.mp hr with ⟨r0, hr0, rfl⟩
      rw [retryAllErrorsForBucket_bucketStats db B now hc, List.map_map]
      have hkeys : (db.bucketStats.map (Prod.fst ∘ (fun p =>
          if p.1 = B then
            (p.1, (p.2.adjust Status.error (-(truthCount db.rows (some B) Status.error))
              (-(truthSize db.rows (some B) Status.error))).adjust Status.pending
              (truthCount db.rows (some B) Status.error)
              (truthSize db.rows (some B) Status.error))
          else p))) = db.bucketStats.map Prod.fst := by
        refine List.map_congr_left ?_
        intro p _
        by_cases hp : p.1 = B
        · simp [hp]
        · simp [hp]
      rw [hkeys]
      by_cases hrc : (r0.status = Status.error && r0.bucket_id = B) = true
      · rw [if_pos hrc, hgb r0]
        exact hcov r0 hr0
      · rw [if_neg hrc]
        exact hcov r0 hr0
  · obtain ⟨hgn, hbn, _⟩ := retryAllErrorsForBucket_stats_noop db B now hc
    have hc0 : truthCount db.rows (some B) Status.error = 0 := by
      have := truthCount_nonneg db.rows (some B) Status.error
      omega
    obtain ⟨hnone, _⟩ := truthCount_zero db.rows (some B) Status.error hc0
    have hmapid : db.rows.map (fun r =>
        if r.status = Status.error && r.bucket_id = B then retryRow now r else r)
          = db.rows := by
      refine map_self_of_fix _ _ ?_
      intro x hx
      rw [if_neg]
      intro hxc
      simp only [Bool.and_eq_true, decide_eq_true_eq] at hxc
      exact hnone x hx ⟨by simp [inScope, hxc.2], hxc.1⟩
    refine ⟨?_, ?_, ?_⟩
    · intro st
      rw [hgn, hrows, hmapid]
      exact hg st
    · intro p hp st
      rw [hbn] at hp
      rw [hrows, hmapid]
      exact hb p hp st
    · intro r hr
      rw [hrows, hmapid] at hr
      rw [hbn]
      exact hcov r hr

theorem truthCount_of_no_member (rows : List FileRow) (b : Option Nat) (st : Status)
    (h : ∀ r ∈ rows, ¬(inScope b r = true ∧ r.status = st)) : truthCount rows b st = 0 := by
  induction rows with
  | nil => simp [truthCount]
  | cons a t ih =>
      rw [truthCount_cons]
      have ha : ind b st a = 0 := by
        unfold ind
        rw [if_neg]
        simp only [Bool.and_eq_true, decide_eq_true_eq, not_and]
        intro h1 h2
        exact h a (by simp) ⟨h1, h2⟩
      rw [ha, ih (fun r hr => h r (by simp [hr]))]
      simp

theorem ind_le_truthCount (rows : List FileRow) (b : Option Nat) (st : Status)
    (r : FileRow) (hr : r ∈ rows) : ind b st r ≤ truthCount rows b st := by
  induction rows with
  | nil => cases hr
  | cons a t ih =>
      rw [truthCount_cons]
      rcases List.mem_cons.mp hr with rfl | hrt
      · have := truthCount_nonneg t b st
        omega
      · have h1 := ind_nonneg b st a
        have h2 := ih hrt
        omega

theorem truthCount_pos_mem (rows : List FileRow) (b : Option Nat) (st : Status)
    (h : 0 < truthCount rows b st) :
    ∃ r ∈ rows, inScope b r = true ∧ r.status = st := by
  by_contra hno
  push_neg at hno
  have : truthCount rows b st = 0 := by
    refine truthCount_of_no_member rows b st ?_
    intro r hr ⟨h1, h2⟩
    exact hno r hr h1 h2
  omega

theorem setBucketStats_keys_of_contains (l : List (Nat × Stats)) (B : Nat) (s : Stats)
    (h : (l.map Prod.fst).contains B = true) :
    (setBucketStats l B s).map Prod.fst = l.map Prod.fst := by
  unfold setBucketStats
  rw [if_pos h, List.map_map]
  refine List.map_congr_left ?_
  intro p _
  by_cases hp : p.1 = B
  · simp [hp]
  · simp [hp]

theorem setBucketStats_mem (l : List (Nat × Stats)) (B : Nat) (s : Stats)
    (p : Nat × Stats) (hp : p ∈ setBucketStats l B s) :
    (p.1 = B ∧ p.2 = s) ∨ (p ∈ l ∧ p.1 ≠ B) := by
  unfold setBucketStats at hp
  split at hp
  · rcases List.mem_map.mp hp with ⟨q, hq, rfl⟩
    by_cases hqB : q.1 = B
    · rw [if_pos hqB]
      left
      simp [hqB]
    · rw [if_neg hqB]
      right
      exact ⟨hq, hqB⟩
  · rcases List.mem_append.mp hp with h1 | h2
    · right
      refine ⟨h1, ?_⟩
      intro hB
      rename_i hcon
      exact hcon (by
        rw [List.contains_iff_exists_mem_beq]
        exact ⟨p.1, List.mem_map_of_mem Prod.fst h1, by simp [hB]⟩)
    · left
      have : p = (B, s) := by simpa using h2
      simp [this]

theorem deleteFilesByBucket_stats_pos (db : DB) (B : Nat)
    (hc : 0 < truthCount db.rows (some B) Status.pending
      + truthCount db.rows (some B) Status.in_progress
      + truthCount db.rows (some B) Status.completed
      + truthCount db.rows (some B) Status.error
      + truthCount db.rows (some B) Status.conflict) :
    (deleteFilesByBucket db B).globalStats
      = (((((db.globalStats.adjust Status.pending
            (-(truthCount db.rows (some B) Status.pending))
            (-(truthSize db.rows (some B) Status.pending))).adjust Status.in_progress
            (-(truthCount db.rows (some B) Status.in_progress))
            (-(truthSize db.rows (some B) Status.in_progress))).adjust Status.completed
            (-(truthCount db.rows (some B) Status.completed))
            (-(truthSize db.rows (some B) Status.completed))).adjust Status.error
            (-(truthCount db.rows (some B) Status.error))
            (-(truthSize db.rows (some B) Status.error))).adjust Status.conflict
            (-(truthCount db.rows (some B) Status.conflict))
            (-(truthSize db.rows (some B) Status.conflict)))
      ∧ (deleteFilesByBucket db B).bucketStats = setBucketStats db.bucketStats B emptyStats
      ∧ (deleteFilesByBucket db B).buckets = db.buckets := by
  unfold deleteFilesByBucket
  dsimp only
  rw [if_pos hc]
  exact ⟨rfl, rfl, rfl⟩

theorem deleteFilesByBucket_stats_neg (db : DB) (B : Nat)
    (hc : ¬ (0 < truthCount db.rows (some B) Status.pending
      + truthCount db.rows (some B) Status.in_progress
      + truthCount db.rows (some B) Status.completed
      + truthCount db.rows (some B) Status.error
      + truthCount db.rows (some B) Status.conflict)) :
    (deleteFilesByBucket db B).globalStats = db.globalStats
      ∧ (deleteFilesByBucket db B).bucketStats = db.bucketStats
      ∧ (deleteFilesByBucket db B).buckets = db.buckets := by
  unfold deleteFilesByBucket
  dsimp only
  rw [if_neg hc]
  exact ⟨rfl, rfl, rfl⟩

theorem acc_deleteFilesByBucket (db : DB) (B : Nat) (hacc : LedgerAccurate db) :
    LedgerAccurate (deleteFilesByBucket db B) := by
  obtain ⟨hg, hb, hcov⟩ := hacc
  have hrows := deleteFilesByBucket_rows db B
  have hfilter := truth_filter_bucket db.rows B
  by_cases hc : 0 < truthCount db.rows (some B) Status.pending
      + truthCount db.rows (some B) Status.in_progress
      + truthCount db.rows (some B) Status.completed
      + truthCount db.rows (some B) Status.error
      + truthCount db.rows (some B) Status.conflict
  · obtain ⟨hgl, hbs, _⟩ := deleteFilesByBucket_stats_pos db B hc
    have hBkeys : B ∈ db.bucketStats.map Prod.fst := by
      have hone : ∃ st : Status, 0 < truthCount db.rows (some B) st := by
        by_contra hall
        push_neg at hall
        have h1 := hall Status.pending
        have h2 := hall Status.in_progress
        have h3 := hall Status.completed
        have h4 := hall Status.error
        have h5 := hall Status.conflict
        omega
      obtain ⟨st0, hst0⟩ := hone
      obtain ⟨r, hr, hsc, _⟩ := truthCount_pos_mem db.rows (some B) st0 hst0
      have hrB : r.bucket_id = B := by
        simpa [inScope] using hsc
      have := hcov r hr
      rw [hrB] at this
      exact this
    have hcont : (db.bucketStats.map Prod.fst).contains B = true := by
      rw [List.contains_iff_exists_mem_beq]
      exact ⟨B, hBkeys, by simp⟩
    refine ⟨?_, ?_, ?_⟩
    · intro st
      rw [hgl, hrows]
      obtain ⟨hd1, hd2⟩ := hfilter none st
      rw [if_pos (by simp : ((none : Option Nat) = none ∨ (none : Option Nat) = some B))] at hd1 hd2
      rw [hd1, hd2]
      have h1 := hg st
      cases st <;>
        simp_all [Stats.get_adjust] <;> omega
    · intro p hp st
      rw [hbs] at hp
      rw [hrows]
      rcases setBucketStats_mem db.bucketStats B emptyStats p hp with ⟨hpB, hps⟩ | ⟨hpl, hpB⟩
      · obtain ⟨hd1, hd2⟩ := hfilter (some p.1) st
        rw [hpB] at hd1 hd2 ⊢
        rw [if_pos (by simp : (some B = none ∨ some B = some B))] at hd1 hd2
        rw [hps, Stats.get_empty]
        simp only [Entry.mk.injEq]
        constructor <;> omega
      · obtain ⟨hd1, hd2⟩ := hfilter (some p.1) st
        rw [if_neg (by simp [hpB] : ¬(some p.1 = none ∨ some p.1 = some B))] at hd1 hd2
        rw [hd1, hd2]
        simp only [sub_zero]
        exact hb p hpl st
    · intro r hr
      rw [hrows] at hr
      rw [hbs, setBucketStats_keys_of_contains db.bucketStats B emptyStats hcont]
      exact hcov r (List.mem_of_mem_filter hr)
  · obtain ⟨hgl, hbs, _⟩ := deleteFilesByBucket_stats_neg db B hc
    have hzero : ∀ st : Status, truthCount db.rows (some B) st = 0 := by
      intro st
      have h1 := truthCount_nonneg db.rows (some B) Status.pending
      have h2 := truthCount_nonneg db.rows (some B) Status.in_progress
      have h3 := truthCount_nonneg db.rows (some B) Status.completed
      have h4 := truthCount_nonneg db.rows (some B) Status.error
      have h5 := truthCount_nonneg db.rows (some B) Status.conflict
      cases st <;> omega
    have hnoB : ∀ r ∈ db.rows, r.bucket_id ≠ B := by
      intro r hr hrB
      have hle := ind_le_truthCount db.rows (some B) r.status r hr
      rw [hzero r.status] at hle
      have : ind (some B) r.status r = 1 := by
        unfold ind inScope
        simp [hrB]
      omega
    have hfid : db.rows.filter (fun r => !(r.bucket_id = B)) = db.rows := by
      rw [List.filter_eq_self]
      intro r hr
      simp [hnoB r hr]
    refine ⟨?_, ?_, ?_⟩
    · intro st
      rw [hgl, hrows, hfid]
      exact hg st
    · intro p hp st
      rw [hbs] at hp
      rw [hrows, hfid]
      exact hb p hp st
    · intro r hr
      rw [hrows, hfid] at hr
      rw [hbs]
      exact hcov r hr

/-- Accuracy core: a guarded single-row update of the unique row `m`
followed by the matching ledger transition. -/
theorem acc_single_guarded (db : DB) (i : Nat) (f : FileRow → FileRow) (m : FileRow) (τ : Status)
    (hwf : db.rows.Pairwise (fun a b => a.id < b.id))
    (hacc : LedgerAccurate db)
    (hm : m ∈ db.rows) (hid : m.id = i)
    (hfix : ∀ r, r.id ≠ i → f r = r)
    (hfm_status : (f m).status = τ)
    (hfm_bucket : (f m).bucket_id = m.bucket_id)
    (hfm_size : (f m).file_size = m.file_size) :
    LedgerAccurate
      (transitionStats { db with rows := db.rows.map f } m.bucket_id m.status τ m.file_size) := by
  have hfix2 : ∀ r : FileRow, r.id ≠ m.id → f r = r := by
    intro r hr
    exact hfix r (by rw [← hid]; exact hr)
  refine acc_transition db (db.rows.map f) m.bucket_id m.status τ m.file_size hacc ?_ ?_
  · intro b st
    obtain ⟨hd1, hd2⟩ := truth_map_single db.rows hwf m hm f hfix2 b st
    constructor
    · rw [hd1, ind_eval b st m, ind_eval b st (f m), hfm_status, hfm_bucket]
    · rw [hd2, indSize_eval b st m, indSize_eval b st (f m), hfm_status, hfm_bucket, hfm_size]
  · intro r hr
    rcases List.mem_map.mp hr with ⟨r1, hr1, rfl⟩
    by_cases h1 : r1.id = i
    · have hrm : r1 = m := id_unique db.rows hwf r1 m hr1 hm (by rw [h1, hid])
      subst hrm
      rw [hfm_bucket]
      exact hacc.2.2 r1 hr1
    · rw [hfix r1 h1]
      exact hacc.2.2 r1 hr1

/-- Accuracy core: a guarded single-row update that moves no cell. -/
theorem acc_single_fixed (db : DB) (i : Nat) (f : FileRow → FileRow) (m : FileRow)
    (hwf : db.rows.Pairwise (fun a b => a.id < b.id))
    (hacc : LedgerAccurate db)
    (hm : m ∈ db.rows) (hid : m.id = i)
    (hfix : ∀ r, r.id ≠ i → f r = r)
    (hfm_status : (f m).status = m.status)
    (hfm_bucket : (f m).bucket_id = m.bucket_id)
    (hfm_size : (f m).file_size = m.file_size) :
    LedgerAccurate { db with rows := db.rows.map f } := by
  have hfix2 : ∀ r : FileRow, r.id ≠ m.id → f r = r := by
    intro r hr
    exact hfix r (by rw [← hid]; exact hr)
  refine acc_same db (db.rows.map f) hacc ?_ ?_
  · intro b st
    obtain ⟨hd1, hd2⟩ := truth_map_single db.rows hwf m hm f hfix2 b st
    constructor
    · rw [hd1, ind_eval b st m, ind_eval b st (f m), hfm_status, hfm_bucket]
      ring
    · rw [hd2, indSize_eval b st m, indSize_eval b st (f m), hfm_status, hfm_bucket, hfm_size]
      ring
  · intro r hr
    rcases List.mem_map.mp hr with ⟨r1, hr1, rfl⟩
    by_cases h1 : r1.id = i
    · have hrm : r1 = m := id_unique db.rows hwf r1 m hr1 hm (by rw [h1, hid])
      subst hrm
      rw [hfm_bucket]
      exact hacc.2.2 r1 hr1
    · rw [hfix r1 h1]
      exact hacc.2.2 r1 hr1

theorem acc_updateStatus (db : DB) (i : Nat) (st : Status) (e : Extras) (now : Nat)
    (hwf : db.rows.Pairwise (fun a b => a.id < b.id))
    (hacc : LedgerAccurate db) :
    LedgerAccurate (updateStatus db i st e now) := by
  unfold updateStatus
  cases hmeta : getFileMeta db.rows i with
  | none =>
      have hno : ∀ r ∈ db.rows, ¬ (r.id = i) := by
        intro r hr
        have := List.find?_eq_none.mp hmeta r hr
        simpa using this
      have hmapid : db.rows.map (fun r => if r.id = i then updateStatusRow st e now r else r)
          = db.rows := by
        refine map_self_of_fix _ _ ?_
        intro x hx
        rw [if_neg (hno x hx)]
      dsimp only
      rw [hmapid]
      exact hacc
  | some m =>
      have hmem : m ∈ db.rows := List.mem_of_find?_eq_some hmeta
      have hid : m.id = i := by
        have := List.find?_some hmeta
        simpa using this
      have hchanged : (db.rows.any (fun r => r.id = i)) = true := by
        rw [List.any_eq_true]
        exact ⟨m, hmem, by simp [hid]⟩
      by_cases hsame : m.status = st
      · dsimp only
        rw [if_neg (by simp [hsame])]
        have hcore := acc_single_fixed db i
          (fun r => if r.id = i then updateStatusRow st e now r else r) m hwf hacc hmem hid
          (fun r hr => by simp [hr]) (by simp [hid, updateStatusRow, hsame])
          (by simp [hid, updateStatusRow]) (by simp [hid, updateStatusRow])
        exact hcore
      · dsimp only
        rw [if_pos (by simp [hchanged, hsame])]
        have hcore := acc_single_guarded db i
          (fun r => if r.id = i then updateStatusRow st e now r else r) m st hwf hacc hmem hid
          (fun r hr => by simp [hr]) (by simp [hid, updateStatusRow])
          (by simp [hid, updateStatusRow]) (by simp [hid, updateStatusRow])
        exact hcore

theorem acc_resolveConflict (db : DB) (i : Nat) (act : Action) (now : Nat)
    (hwf : db.rows.Pairwise (fun a b => a.id < b.id))
    (hacc : LedgerAccurate db) :
    LedgerAccurate (resolveConflict db i act now) := by
  unfold resolveConflict
  cases hmeta : getFileMeta db.rows i with
  | none =>
      have hno : ∀ r ∈ db.rows, ¬ (r.id = i) := by
        intro r hr
        have := List.find?_eq_none.mp hmeta r hr
        simpa using this
      have hmapid : db.rows.map (fun r =>
          if r.id = i && r.status = Status.conflict then resolveActionRow act now r else r)
            = db.rows := by
        refine map_self_of_fix _ _ ?_
        intro x hx
        rw [if_neg (by simp [hno x hx])]
      dsimp only
      rw [hmapid]
      exact hacc
  | some m =>
      have hmem : m ∈ db.rows := List.mem_of_find?_eq_some hmeta
      have hid : m.id = i := by
        have := List.find?_some hmeta
        simpa using this
      by_cases hchg : (db.rows.any (fun r => r.id = i && r.status = Status.conflict)) = true
      · have hmc : m.status = Status.conflict := by
          rcases List.any_eq_true.mp hchg with ⟨r, hr, hrp⟩
          simp only [Bool.and_eq_true, decide_eq_true_eq] at hrp
          have : r = m := id_unique db.rows hwf r m hr hmem (by rw [hrp.1, hid])
          rw [← this]
          exact hrp.2
        dsimp only
        rw [if_pos hchg]
        have hcore := acc_single_guarded db i
          (fun r => if r.id = i && r.status = Status.conflict then resolveActionRow act now r else r)
          m (targetStatus act) hwf hacc hmem hid
          (fun r hr => by simp [hr])
          (by cases act <;>
            simp [hid, hmc, resolveActionRow, resolveOverwriteRow, resolveSkipRow, targetStatus])
          (by cases act <;>
            simp [hid, hmc, resolveActionRow, resolveOverwriteRow, resolveSkipRow])
          (by cases act <;>
            simp [hid, hmc, resolveActionRow, resolveOverwriteRow, resolveSkipRow])
        rw [hmc] at hcore
        exact hcore
      · have hnot : ∀ r ∈ db.rows, ¬ ((r.id = i && r.status = Status.conflict) = true) := by
          rw [← List.any_eq_false]
          simpa using hchg
        have hmapid : db.rows.map (fun r =>
            if r.id = i && r.status = Status.conflict then resolveActionRow act now r else r)
              = db.rows := by
          refine map_self_of_fix _ _ ?_
          intro x hx
          rw [if_neg (hnot x hx)]
        dsimp only
        rw [if_neg (by simpa using hchg), hmapid]
        exact hacc

theorem acc_retryError (db : DB) (i now : Nat)
    (hwf : db.rows.Pairwise (fun a b => a.id < b.id))
    (hacc : LedgerAccurate db) :
    LedgerAccurate (retryError db i now) := by
  unfold retryError
  cases hmeta : getFileMeta db.rows i with
  | none =>
      have hno : ∀ r ∈ db.rows, ¬ (r.id = i) := by
        intro r hr
        have := List.find?_eq_none.mp hmeta r hr
        simpa using this
      have hmapid : db.rows.map (fun r =>
          if r.id = i && r.status = Status.error then retryRow now r else r) = db.rows := by
        refine map_self_of_fix _ _ ?_
        intro x hx
        rw [if_neg (by simp [hno x hx])]
      dsimp only
      rw [hmapid]
      exact hacc
  | some m =>
      have hmem : m ∈ db.rows := List.mem_of_find?_eq_some hmeta
      have hid : m.id = i := by
        have := List.find?_some hmeta
        simpa using this
      by_cases hchg : (db.rows.any (fun r => r.id = i && r.status = Status.error)) = true
      · have hmc : m.status = Status.error := by
          rcases List.any_eq_true.mp hchg with ⟨r, hr, hrp⟩
          simp only [Bool.and_eq_true, decide_eq_true_eq] at hrp
          have : r = m := id_unique db.rows hwf r m hr hmem (by rw [hrp.1, hid])
          rw [← this]
          exact hrp.2
        dsimp only
        rw [if_pos hchg]
        have hcore := acc_single_guarded db i
          (fun r => if r.id = i && r.status = Status.error then retryRow now r else r)
          m Status.pending hwf hacc hmem hid
          (fun r hr => by simp [hr])
          (by simp [hid, hmc, retryRow])
          (by simp [hid, hmc, retryRow])
          (by simp [hid, hmc, retryRow])
        rw [hmc] at hcore
        exact hcore
      · have hnot : ∀ r ∈ db.rows, ¬ ((r.id = i && r.status = Status.error) = true) := by
          rw [← List.any_eq_false]
          simpa using hchg
        have hmapid : db.rows.map (fun r =>
            if r.id = i && r.status = Status.error then retryRow now r else r) = db.rows := by
          refine map_self_of_fix _ _ ?_
          intro x hx
          rw [if_neg (hnot x hx)]
        dsimp only
        rw [if_neg (by simpa using hchg), hmapid]
        exact hacc

theorem truthSize_of_no_member (rows : List FileRow) (b : Option Nat) (st : Status)
    (h : ∀ r ∈ rows, ¬(inScope b r = true ∧ r.status = st)) : truthSize rows b st = 0 := by
  induction rows with
  | nil => simp [truthSize]
  | cons a t ih =>
      rw [truthSize_cons]
      have ha : indSize b st a = 0 := by
        unfold indSize
        rw [if_neg]
        simp only [Bool.and_eq_true, decide_eq_true_eq, not_and]
        intro h1 h2
        exact h a (by simp) ⟨h1, h2⟩
      rw [ha, ih (fun r hr => h r (by simp [hr]))]
      simp

theorem insertFile_keys (now : Nat) (db : DB) (f : NewFile) :
    (insertFile now db f).bucketStats.map Prod.fst = db.bucketStats.map Prod.fst := by
  unfold insertFile
  split
  · rfl
  · dsimp only
    rw [adjustStats_keys]

theorem insertFile_buckets (now : Nat) (db : DB) (f : NewFile) :
    (insertFile now db f).buckets = db.buckets := by
  unfold insertFile
  split
  · rfl
  · dsimp only
    rw [adjustStats_buckets]

theorem acc_insertFile (now : Nat) (db : DB) (f : NewFile)
    (hkey : f.bucketId ∈ db.bucketStats.map Prod.fst)
    (hacc : LedgerAccurate db) :
    LedgerAccurate (insertFile now db f) := by
  unfold insertFile
  by_cases ht : tripleExists db.rows f = true
  · rw [if_pos ht]
    exact hacc
  · rw [if_neg ht]
    dsimp only
    exact acc_insert db (rowOfNewFile (nextId db.rows) now f) hacc hkey

theorem acc_addFilesAux (now : Nat) (files : List NewFile) (db : DB)
    (hkeys : ∀ f ∈ files, f.bucketId ∈ db.bucketStats.map Prod.fst)
    (hacc : LedgerAccurate db) :
    LedgerAccurate (addFilesTransaction now db files).1 := by
  induction files generalizing db with
  | nil => exact hacc
  | cons f rest ih =>
      dsimp only [addFilesTransaction]
      refine ih (insertFile now db f) ?_
        (acc_insertFile now db f (hkeys f (by simp)) hacc)
      intro g hg
      rw [insertFile_keys]
      exact hkeys g (by simp [hg])

theorem acc_claimLoop (workerId now : Nat) (sel : List FileRow) (db : DB)
    (hwf : db.rows.Pairwise (fun a b => a.id < b.id))
    (hsel : ∀ row ∈ sel, ∀ m ∈ db.rows, m.id = row.id →
        m.bucket_id = row.bucket_id ∧ m.file_size = row.file_size)
    (hacc : LedgerAccurate db) :
    LedgerAccurate (claimLoop workerId now db sel).1 := by
  induction sel generalizing db with
  | nil => exact hacc
  | cons row rest ih =>
      dsimp only [claimLoop, markInProgress]
      by_cases hch : (db.rows.any (fun r => r.id = row.id && r.status = Status.pending)) = true
      · rw [if_pos hch]
        dsimp only
        rcases List.any_eq_true.mp hch with ⟨m, hm, hmp⟩
        simp only [Bool.and_eq_true, decide_eq_true_eq] at hmp
        obtain ⟨hmid, hmpend⟩ := hmp
        obtain ⟨hmb, hms⟩ := hsel row (by simp) m hm hmid
        have hcore := acc_single_guarded db row.id
          (fun r => if r.id = row.id && r.status = Status.pending then stampRow workerId now r else r)
          m Status.in_progress hwf hacc hm hmid
          (fun r hr => by simp [hr])
          (by simp [hmid, hmpend, stampRow])
          (by simp [hmid, hmpend, stampRow])
          (by simp [hmid, hmpend, stampRow])
        rw [hmpend, hmb, hms] at hcore
        refine ih _ ?_ ?_ hcore
        · rw [transitionStats_rows]
          refine pairwise_ids_map db.rows _ ?_ hwf
          intro x
          dsimp only
          split <;> rfl
        · intro row2 hrow2 m2 hm2 hid2
          rw [transitionStats_rows] at hm2
          rcases List.mem_map.mp hm2 with ⟨m1, hm1, rfl⟩
          by_cases hg : (m1.id = row.id && m1.status = Status.pending) = true
          · rw [if_pos hg] at hid2 ⊢
            have := hsel row2 (by simp [hrow2]) m1 hm1 (by simpa [stampRow] using hid2)
            simpa [stampRow] using this
          · rw [if_neg hg] at hid2 ⊢
            exact hsel row2 (by simp [hrow2]) m1 hm1 hid2
      · rw [if_neg (by simpa using hch)]
        dsimp only
        have hno : ∀ r ∈ db.rows, ¬ ((r.id = row.id && r.status = Status.pending) = true) := by
          rw [← List.any_eq_false]
          simpa using hch
        have hmapid : db.rows.map (fun r =>
            if r.id = row.id && r.status = Status.pending then stampRow workerId now r else r)
              = db.rows := by
          refine map_self_of_fix _ _ ?_
          intro x hx
          rw [if_neg (hno x hx)]
        rw [hmapid]
        exact ih db hwf (fun row2 hrow2 => hsel row2 (by simp [hrow2])) hacc

theorem acc_claim (db : DB) (bucketId : Nat) (folder : String) (limit workerId now : Nat)
    (hwf : db.rows.Pairwise (fun a b => a.id < b.id))
    (hacc : LedgerAccurate db) :
    LedgerAccurate (claimPendingForBucketAndFolderTransaction db bucketId folder limit workerId now).1 := by
  unfold claimPendingForBucketAndFolderTransaction
  refine acc_claimLoop workerId now _ db hwf ?_ hacc
  intro row hrow m hm hid
  have hrow' : row ∈ db.rows := by
    have h1 := List.mem_of_mem_take hrow
    exact List.mem_of_mem_filter h1
  have hmr : m = row := id_unique db.rows hwf m row hm hrow' hid
  subst hmr
  exact ⟨rfl, rfl⟩

theorem acc_createBucket (db : DB) (b : Nat) (hacc : LedgerAccurate db)
    (hsub : ∀ p ∈ db.bucketStats, p.1 ∈ db.buckets) (hfresh : b ∉ db.buckets) :
    LedgerAccurate (createBucket db b) := by
  obtain ⟨hg, hb, hcov⟩ := hacc
  have hnorow : ∀ r ∈ db.rows, ¬(r.bucket_id = b) := by
    intro r hr hrb
    have h1 := hcov r hr
    rcases List.mem_map.mp h1 with ⟨p, hp, hpe⟩
    exact hfresh (by rw [← hrb, ← hpe]; exact hsub p hp)
  unfold createBucket
  refine ⟨?_, ?_, ?_⟩
  · intro st
    exact hg st
  · intro p hp st
    dsimp only at hp
    rcases List.mem_append.mp hp with hp1 | hp2
    · exact hb p hp1 st
    · have hpb : p = (b, emptyStats) := by simpa using hp2
      subst hpb
      have hc : truthCount db.rows (some b) st = 0 := by
        refine truthCount_of_no_member db.rows (some b) st ?_
        intro r hr hrp
        exact hnorow r hr (by simpa [inScope] using hrp.1)
      have hs : truthSize db.rows (some b) st = 0 := by
        refine truthSize_of_no_member db.rows (some b) st ?_
        intro r hr hrp
        exact hnorow r hr (by simpa [inScope] using hrp.1)
      show emptyStats.get st = ⟨truthCount db.rows (some b) st, truthSize db.rows (some b) st⟩
      rw [hc, hs]
      cases st <;> rfl
  · intro r hr
    dsimp only
    rw [List.map_append]
    exact List.mem_append_left _ (hcov r hr)

theorem acc_deleteBucket (db : DB) (b : Nat) (hacc : LedgerAccurate db) :
    LedgerAccurate (deleteBucket db b) := by
  obtain ⟨hg, hbk, hcov⟩ := acc_deleteFilesByBucket db b hacc
  unfold deleteBucket
  dsimp only
  refine ⟨?_, ?_, ?_⟩
  · intro st
    exact hg st
  · intro p hp st
    exact hbk p (List.mem_of_mem_filter hp) st
  · intro r hr
    have hr' : r ∈ (deleteFilesByBucket db b).rows := hr
    have hrb : ¬(r.bucket_id = b) := by
      rw [deleteFilesByBucket_rows] at hr'
      have h2 := (List.mem_filter.mp hr').2
      simpa using h2
    rcases List.mem_map.mp (hcov r hr) with ⟨p, hp, hpe⟩
    refine List.mem_map.mpr ⟨p, List.mem_filter.mpr ⟨hp, ?_⟩, hpe⟩
    simpa [hpe] using hrb

/-- WF transfer along unchanged buckets and ledger keys. -/
theorem wf_of_components (db db2 : DB) (hwf : WF db)
    (hrows : db2.rows.Pairwise (fun a b => a.id < b.id))
    (hbuckets : db2.buckets = db.buckets)
    (hkeys : db2.bucketStats.map Prod.fst = db.bucketStats.map Prod.fst) :
    WF db2 := by
  obtain ⟨h1, h2, h3, h4, h5⟩ := hwf
  refine ⟨hrows, hbuckets ▸ h2, hkeys ▸ h3, ?_, ?_⟩
  · intro p hp
    rw [hbuckets]
    have hpk : p.1 ∈ db2.bucketStats.map Prod.fst := List.mem_map.mpr ⟨p, hp, rfl⟩
    rw [hkeys] at hpk
    rcases List.mem_map.mp hpk with ⟨q, hq, hqe⟩
    rw [← hqe]
    exact h4 q hq
  · intro b hb
    rw [hbuckets] at hb
    rw [hkeys]
    exact h5 b hb

theorem lt_nextId (rows : List FileRow) (r : FileRow) (hr : r ∈ rows) :
    r.id < nextId rows := by
  induction rows with
  | nil => cases hr
  | cons a t ih =>
      have hstep : nextId (a :: t) = max (a.id + 1) (nextId t) := rfl
      rcases List.mem_cons.mp hr with rfl | hrt
      · rw [hstep]
        omega
      · have := ih hrt
        rw [hstep]
        omega

theorem insertFile_pairwise (now : Nat) (db : DB) (f : NewFile)
    (h : db.rows.Pairwise (fun a b => a.id < b.id)) :
    (insertFile now db f).rows.Pairwise (fun a b => a.id < b.id) := by
  rw [insertFile_rows]
  split
  · exact h
  · refine List.pairwise_append.mpr ⟨h, by simp, ?_⟩
    intro a ha b hb
    have hbv : b = rowOfNewFile (nextId db.rows) now f := by simpa using hb
    subst hbv
    exact lt_nextId db.rows a ha

theorem wf_addFilesAux (now : Nat) (files : List NewFile) (db : DB) (hwf : WF db) :
    WF (addFilesTransaction now db files).1 := by
  induction files generalizing db with
  | nil => exact hwf
  | cons f rest ih =>
      dsimp only [addFilesTransaction]
      refine ih (insertFile now db f)
        (wf_of_components db _ hwf (insertFile_pairwise now db f hwf.1)
          (insertFile_buckets now db f) (insertFile_keys now db f))

theorem keys_map_keyfix (l : List (Nat × Stats)) (f : Nat × Stats → Nat × Stats)
    (hf : ∀ p, (f p).1 = p.1) : (l.map f).map Prod.fst = l.map Prod.fst := by
  rw [List.map_map]
  refine List.map_congr_left ?_
  intro p _
  exact hf p

theorem updateStatus_buckets (db : DB) (i : Nat) (st : Status) (e : Extras) (now : Nat) :
    (updateStatus db i st e now).buckets = db.buckets := by
  unfold updateStatus
  cases hm : getFileMeta db.rows i with
  | none => rfl
  | some m =>
      dsimp only
      split
      · rw [transitionStats_buckets]
      · rfl

theorem updateStatus_keys (db : DB) (i : Nat) (st : Status) (e : Extras) (now : Nat) :
    (updateStatus db i st e now).bucketStats.map Prod.fst = db.bucketStats.map Prod.fst := by
  unfold updateStatus
  cases hm : getFileMeta db.rows i with
  | none => rfl
  | some m =>
      dsimp only
      split
      · rw [transitionStats_keys]
      · rfl

theorem resolveConflict_buckets (db : DB) (i : Nat) (a : Action) (now : Nat) :
    (resolveConflict db i a now).buckets = db.buckets := by
  unfold resolveConflict
  cases hm : getFileMeta db.rows i with
  | none => rfl
  | some m =>
      dsimp only
      split
      · rw [transitionStats_buckets]
      · rfl

theorem resolveConflict_keys (db : DB) (i : Nat) (a : Action) (now : Nat) :
    (resolveConflict db i a now).bucketStats.map Prod.fst
      = db.bucketStats.map Prod.fst := by
  unfold resolveConflict
  cases hm : getFileMeta db.rows i with
  | none => rfl
  | some m =>
      dsimp only
      split
      · rw [transitionStats_keys]
      · rfl

theorem retryError_buckets (db : DB) (i now : Nat) :
    (retryError db i now).buckets = db.buckets := by
  unfold retryError
  cases hm : getFileMeta db.rows i with
  | none => rfl
  | some m =>
      dsimp only
      split
      · rw [transitionStats_buckets]
      · rfl

theorem retryError_keys (db : DB) (i now : Nat) :
    (retryError db i now).bucketStats.map Prod.fst = db.bucketStats.map Prod.fst := by
  unfold retryError
  cases hm : getFileMeta db.rows i with
  | none => rfl
  | some m =>
      dsimp only
      split
      · rw [transitionStats_keys]
      · rfl

theorem resolveAllConflicts_keys (db : DB) (act : Action) (now : Nat) :
    (resolveAllConflicts db act now).bucketStats.map Prod.fst
      = db.bucketStats.map Prod.fst := by
  by_cases hc : 0 < truthCount db.rows none Status.conflict
  · rw [resolveAllConflicts_bucketStats db act now hc]
    exact keys_map_keyfix _ _ (fun p => rfl)
  · rw [(resolveAllConflicts_stats_noop db act now hc).2.1]

theorem retryAllErrors_keys (db : DB) (now : Nat) :
    (retryAllErrors db now).bucketStats.map Prod.fst = db.bucketStats.map Prod.fst := by
  by_cases hc : 0 < truthCount db.rows none Status.error
  · rw [retryAllErrors_bucketStats db now hc]
    exact keys_map_keyfix _ _ (fun p => rfl)
  · rw [(retryAllErrors_stats_noop db now hc).2.1]

theorem resolveAllConflictsForBucket_keys (db : DB) (B : Nat) (act : Action) (now : Nat) :
    (resolveAllConflictsForBucket db B act now).bucketStats.map Prod.fst
      = db.bucketStats.map Prod.fst := by
  by_cases hc : 0 < truthCount db.rows (some B) Status.conflict
  · rw [resolveAllConflictsForBucket_bucketStats db B act now hc]
    refine keys_map_keyfix _ _ ?_
    intro p
    dsimp only
    split <;> rfl
  · rw [(resolveAllConflictsForBucket_stats_noop db B act now hc).2.1]

theorem retryAllErrorsForBucket_keys (db : DB) (B : Nat) (now : Nat) :
    (retryAllErrorsForBucket db B now).bucketStats.map Prod.fst
      = db.bucketStats.map Prod.fst := by
  by_cases hc : 0 < truthCount db.rows (some B) Status.error
  · rw [retryAllErrorsForBucket_bucketStats db B now hc]
    refine keys_map_keyfix _ _ ?_
    intro p
    dsimp only
    split <;> rfl
  · rw [(retryAllErrorsForBucket_stats_noop db B now hc).2.1]

theorem wf_claimLoop (workerId now : Nat) (sel : List FileRow) (db : DB) (hwf : WF db) :
    WF (claimLoop workerId now db sel).1 := by
  induction sel generalizing db with
  | nil => exact hwf
  | cons row rest ih =>
      dsimp only [claimLoop, markInProgress]
      have hrows2 : (db.rows.map (fun r =>
          if r.id = row.id && r.status = Status.pending then stampRow workerId now r else r)).Pairwise
            (fun a b => a.id < b.id) := by
        refine pairwise_ids_map db.rows _ ?_ hwf.1
        intro x
        dsimp only
        split <;> rfl
      by_cases hch : (db.rows.any (fun r => r.id = row.id && r.status = Status.pending)) = true
      · rw [if_pos hch]
        dsimp only
        refine ih _ (wf_of_components db _ hwf ?_ ?_ ?_)
        · rw [transitionStats_rows]
          exact hrows2
        · rw [transitionStats_buckets]
        · rw [transitionStats_keys]
      · rw [if_neg (by simpa using hch)]
        dsimp only
        exact ih _ (wf_of_components db _ hwf hrows2 rfl rfl)

theorem deleteFilesByBucket_buckets (db : DB) (B : Nat) :
    (deleteFilesByBucket db B).buckets = db.buckets := by
  unfold deleteFilesByBucket
  dsimp only
  split <;> rfl

theorem deleteFilesByBucket_keys (db : DB) (B : Nat) (hacc : LedgerAccurate db) :
    (deleteFilesByBucket db B).bucketStats.map Prod.fst
      = db.bucketStats.map Prod.fst := by
  by_cases hc : 0 < truthCount db.rows (some B) Status.pending
      + truthCount db.rows (some B) Status.in_progress
      + truthCount db.rows (some B) Status.completed
      + truthCount db.rows (some B) Status.error
      + truthCount db.rows (some B) Status.conflict
  · rw [(deleteFilesByBucket_stats_pos db B hc).2.1]
    have hone : ∃ st : Status, 0 < truthCount db.rows (some B) st := by
      by_contra hall
      push_neg at hall
      have h1 := hall Status.pending
      have h2 := hall Status.in_progress
      have h3 := hall Status.completed
      have h4 := hall Status.error
      have h5 := hall Status.conflict
      omega
    obtain ⟨st0, hst0⟩ := hone
    obtain ⟨r, hr, hsc, _⟩ := truthCount_pos_mem db.rows (some B) st0 hst0
    have hrB : r.bucket_id = B := by
      simpa [inScope] using hsc
    have hBkeys : B ∈ db.bucketStats.map Prod.fst := by
      have := hacc.2.2 r hr
      rw [hrB] at this
      exact this
    refine setBucketStats_keys_of_contains db.bucketStats B emptyStats ?_
    rw [List.contains_iff_exists_mem_beq]
    exact ⟨B, hBkeys, by simp⟩
  · rw [(deleteFilesByBucket_stats_neg db B hc).2.1]

theorem wf_deleteFilesByBucket (db : DB) (B : Nat) (hwf : WF db)
    (hacc : LedgerAccurate db) : WF (deleteFilesByBucket db B) := by
  refine wf_of_components db _ hwf ?_ (deleteFilesByBucket_buckets db B)
    (deleteFilesByBucket_keys db B hacc)
  rw [deleteFilesByBucket_rows]
  exact List.Pairwise.sublist (List.filter_sublist db.rows) hwf.1

theorem wf_createBucket (db : DB) (b : Nat) (hwf : WF db) (hfresh : b ∉ db.buckets) :
    WF (createBucket db b) := by
  obtain ⟨h1, h2, h3, h4, h5⟩ := hwf
  have hkfresh : b ∉ db.bucketStats.map Prod.fst := by
    intro hb
    rcases List.mem_map.mp hb with ⟨p, hp, hpe⟩
    exact hfresh (hpe ▸ h4 p hp)
  unfold createBucket
  refine ⟨h1, ?_, ?_, ?_, ?_⟩
  · dsimp only
    refine List.Nodup.append h2 (by simp) ?_
    intro x hx hxb
    have hxv : x = b := by simpa using hxb
    exact hfresh (hxv ▸ hx)
  · dsimp only
    rw [List.map_append]
    refine List.Nodup.append h3 (by simp) ?_
    intro x hx hxb
    have hxv : x = b := by simpa using hxb
    exact hkfresh (hxv ▸ hx)
  · intro p hp
    dsimp only at hp ⊢
    rcases List.mem_append.mp hp with hp1 | hp2
    · exact List.mem_append_left _ (h4 p hp1)
    · have hpv : p = (b, emptyStats) := by simpa using hp2
      subst hpv
      exact List.mem_append_right _ (by simp)
  · intro x hx
    dsimp only at hx ⊢
    rw [List.map_append]
    rcases List.mem_append.mp hx with hx1 | hx2
    · exact List.mem_append_left _ (h5 x hx1)
    · have hxv : x = b := by simpa using hx2
      subst hxv
      exact List.mem_append_right _ (by simp)

theorem wf_deleteBucket (db : DB) (b : Nat) (hwf : WF db) (hacc : LedgerAccurate db) :
    WF (deleteBucket db b) := by
  obtain ⟨h1, h2, h3, h4, h5⟩ := wf_deleteFilesByBucket db b hwf hacc
  unfold deleteBucket
  dsimp only
  refine ⟨h1, ?_, ?_, ?_, ?_⟩
  · exact List.Nodup.filter _ h2
  · exact List.Nodup.sublist ((List.filter_sublist _).map Prod.fst) h3
  · intro p hp
    obtain ⟨hp1, hp2⟩ := List.mem_filter.mp hp
    refine List.mem_filter.mpr ⟨h4 p hp1, ?_⟩
    simpa using hp2
  · intro x hx
    obtain ⟨hx1, hx2⟩ := List.mem_filter.mp hx
    have hxb : ¬(x = b) := by simpa using hx2
    rcases List.mem_map.mp (h5 x hx1) with ⟨p, hp, hpe⟩
    refine List.mem_map.mpr ⟨p, List.mem_filter.mpr ⟨hp, ?_⟩, hpe⟩
    simpa [hpe] using hxb

/-- Every store operation, as the repository invokes it, preserves
structural well-formedness. -/
theorem wf_applyOp (op : StoreOp) (db : DB) (hwf : WF db) (hval : OpValid db op)
    (hacc : LedgerAccurate db) : WF (applyOp op db) := by
  cases op with
  | addFiles files now => exact wf_addFilesAux now files db hwf
  | claim b f limit w now => exact wf_claimLoop w now _ db hwf
  | commit i st e now =>
      dsimp only [applyOp]
      refine wf_of_components db _ hwf ?_ (updateStatus_buckets db i st e now)
        (updateStatus_keys db i st e now)
      rw [updateStatus_rows]
      refine pairwise_ids_map db.rows _ ?_ hwf.1
      intro x
      dsimp only
      split <;> rfl
  | resolve i a now =>
      dsimp only [applyOp]
      refine wf_of_components db _ hwf ?_ (resolveConflict_buckets db i a now)
        (resolveConflict_keys db i a now)
      rw [resolveConflict_rows]
      refine pairwise_ids_map db.rows _ ?_ hwf.1
      intro x
      dsimp only
      split
      · cases a <;> rfl
      · rfl
  | resolveAll a now =>
      dsimp only [applyOp]
      refine wf_of_components db _ hwf ?_ (resolveAllConflicts_buckets db a now)
        (resolveAllConflicts_keys db a now)
      rw [resolveAllConflicts_rows]
      refine pairwise_ids_map db.rows _ ?_ hwf.1
      intro x
      dsimp only
      split
      · cases a <;> rfl
      · rfl
  | resolveAllForBucket b a now =>
      dsimp only [applyOp]
      refine wf_of_components db _ hwf ?_ (resolveAllConflictsForBucket_buckets db b a now)
        (resolveAllConflictsForBucket_keys db b a now)
      rw [resolveAllConflictsForBucket_rows]
      refine pairwise_ids_map db.rows _ ?_ hwf.1
      intro x
      dsimp only
      split
      · cases a <;> rfl
      · rfl
  | retry i now =>
      dsimp only [applyOp]
      refine wf_of_components db _ hwf ?_ (retryError_buckets db i now)
        (retryError_keys db i now)
      rw [retryError_rows]
      refine pairwise_ids_map db.rows _ ?_ hwf.1
      intro x
      dsimp only
      split <;> rfl
  | retryAll now =>
      dsimp only [applyOp]
      refine wf_of_components db _ hwf ?_ (retryAllErrors_buckets db now)
        (retryAllErrors_keys db now)
      rw [retryAllErrors_rows]
      refine pairwise_ids_map db.rows _ ?_ hwf.1
      intro x
      dsimp only
      split <;> rfl
  | retryAllForBucket b now =>
      dsimp only [applyOp]
      refine wf_of_components db _ hwf ?_ (retryAllErrorsForBucket_buckets db b now)
        (retryAllErrorsForBucket_keys db b now)
      rw [retryAllErrorsForBucket_rows]
      refine pairwise_ids_map db.rows _ ?_ hwf.1
      intro x
      dsimp only
      split <;> rfl
  | deleteFiles b => exact wf_deleteFilesByBucket db b hwf hacc
  | newBucket b => exact wf_createBucket db b hwf hval
  | dropBucket b => exact wf_deleteBucket db b hwf hacc

/-- Every store operation, as the repository invokes it, preserves ledger
accuracy. -/
theorem acc_applyOp (op : StoreOp) (db : DB) (hwf : WF db) (hval : OpValid db op)
    (hacc : LedgerAccurate db) : LedgerAccurate (applyOp op db) := by
  obtain ⟨hrows, hnb, hnk, hsub, hful⟩ := hwf
  cases op with
  | addFiles files now =>
      exact acc_addFilesAux now files db (fun f hf => hful f.bucketId (hval f hf)) hacc
  | claim b f limit w now => exact acc_claim db b f limit w now hrows hacc
  | commit i st e now => exact acc_updateStatus db i st e now hrows hacc
  | resolve i a now => exact acc_resolveConflict db i a now hrows hacc
  | resolveAll a now => exact acc_resolveAllConflicts db a now hacc
  | resolveAllForBucket b a now => exact acc_resolveAllConflictsForBucket db b a now hacc
  | retry i now => exact acc_retryError db i now hrows hacc
  | retryAll now => exact acc_retryAllErrors db now hacc
  | retryAllForBucket b now => exact acc_retryAllErrorsForBucket db b now hacc
  | deleteFiles b => exact acc_deleteFilesByBucket db b hacc
  | newBucket b => exact acc_createBucket db b hacc hsub hval
  | dropBucket b => exact acc_deleteBucket db b hacc

theorem stats_eq_of_get (s t : Stats) (h : ∀ st : Status, s.get st = t.get st) : s = t := by
  obtain ⟨a1, a2, a3, a4, a5⟩ := s
  obtain ⟨b1, b2, b3, b4, b5⟩ := t
  have h1 := h Status.pending
  have h2 := h Status.in_progress
  have h3 := h Status.completed
  have h4 := h Status.error
  have h5 := h Status.conflict
  simp only [Stats.get] at h1 h2 h3 h4 h5
  simp [h1, h2, h3, h4, h5]

theorem truthStats_get (rows : List FileRow) (b : Option Nat) (st : Status) :
    (truthStats rows b).get st = ⟨truthCount rows b st, truthSize rows b st⟩ := by
  cases st <;> rfl

theorem find_key_map_self (bs : List Nat) (T : Nat → Stats) (b : Nat) (hb : b ∈ bs) :
    (bs.map (fun x => (x, T x))).find? (fun p => p.1 = b) = some (b, T b) := by
  induction bs with
  | nil => cases hb
  | cons a t ih =>
      by_cases hab : a = b
      · subst hab
        rw [List.map_cons, List.find?_cons_of_pos _ (by simp)]
      · rw [List.map_cons, List.find?_cons_of_neg _ (by simp [hab])]
        refine ih ?_
        rcases List.mem_cons.mp hb with rfl | h
        · exact absurd rfl hab
        · exact h

theorem find_key_map_none (bs : List Nat) (T : Nat → Stats) (b : Nat) (hb : b ∉ bs) :
    (bs.map (fun x => (x, T x))).find? (fun p => p.1 = b) = none := by
  rw [List.find?_eq_none]
  intro p hp
  rcases List.mem_map.mp hp with ⟨x, hx, rfl⟩
  simp only [decide_eq_true_eq]
  intro hxb
  exact hb (hxb ▸ hx)

theorem lookupStats_eq_truth (db : DB) (b : Nat)
    (hacc : LedgerAccurate db) (hb : b ∈ db.bucketStats.map Prod.fst) :
    lookupStats db.bucketStats b = some (truthStats db.rows (some b)) := by
  rcases List.mem_map.mp hb with ⟨p0, hp0, hp0e⟩
  cases hq : db.bucketStats.find? (fun p => p.1 = b) with
  | none =>
      exact absurd (List.find?_eq_none.mp hq p0 hp0) (by simp [hp0e])
  | some q =>
      have hqm := List.mem_of_find?_eq_some hq
      have hqb : q.1 = b := by simpa using List.find?_some hq
      unfold lookupStats
      rw [hq]
      have hq2 : q.2 = truthStats db.rows (some b) := by
        refine stats_eq_of_get _ _ ?_
        intro st
        rw [truthStats_get, ← hqb]
        exact hacc.2.1 q hqm st
      show some q.2 = some (truthStats db.rows (some b))
      rw [hq2]

theorem lookupStats_none_of_not_mem (l : List (Nat × Stats)) (b : Nat)
    (h : ∀ p ∈ l, p.1 ≠ b) : lookupStats l b = none := by
  have hfind : l.find? (fun p => p.1 = b) = none := by
    rw [List.find?_eq_none]
    intro p hp
    simpa using h p hp
  unfold lookupStats
  rw [hfind]

/-- On a well-formed, accurate state, rebuilding the ledger from the
GROUP BY aggregates changes neither the global ledger nor any per-bucket
lookup. -/
theorem loadStatsCache_noop (db : DB) (hwf : WF db) (hacc : LedgerAccurate db) :
    (loadStatsCache db).globalStats = db.globalStats
      ∧ ∀ b : Nat, lookupStats (loadStatsCache db).bucketStats b
          = lookupStats db.bucketStats b := by
  obtain ⟨h1, h2, h3, h4, h5⟩ := hwf
  constructor
  · show truthStats db.rows none = db.globalStats
    refine stats_eq_of_get _ _ ?_
    intro st
    rw [truthStats_get, hacc.1 st]
  · intro b
    show lookupStats (db.buckets.map (fun x => (x, truthStats db.rows (some x)))) b = _
    by_cases hb : b ∈ db.buckets
    · have hR := lookupStats_eq_truth db b hacc (h5 b hb)
      have hL : lookupStats (db.buckets.map (fun x => (x, truthStats db.rows (some x)))) b
          = some (truthStats db.rows (some b)) := by
        unfold lookupStats
        rw [find_key_map_self db.buckets _ b hb]
      rw [hL, hR]
    · have hL : lookupStats (db.buckets.map (fun x => (x, truthStats db.rows (some x)))) b
          = none := by
        unfold lookupStats
        rw [find_key_map_none db.buckets _ b hb]
      have hR : lookupStats db.bucketStats b = none := by
        refine lookupStats_none_of_not_mem _ _ ?_
        intro p hp hpb
        exact hb (hpb ▸ h4 p hp)
      rw [hL, hR]

/-- C5: from a well-formed state whose in-memory ledger matches the
ground-truth aggregates, every store operation (insert batch, claim,
commit, single and bulk conflict resolution and retry, bucket file
deletion, bucket creation and deletion), as the repository invokes it,
again yields a state whose global and per-bucket ledger entries equal the
`COUNT(*)`/`SUM(file_size)` aggregates over the queue rows for every
(bucket, status) pair; consequently rebuilding the ledger from a GROUP BY
over the table (`_loadStatsCache`) changes neither the global ledger nor
any bucket's ledger lookup. -/
theorem ledger_fidelity (op : StoreOp) (db : DB)
    (hwf : WF db) (hval : OpValid db op) (hacc : LedgerAccurate db) :
    (LedgerAccurate (applyOp op db) ∧ WF (applyOp op db))
      ∧ ((loadStatsCache (applyOp op db)).globalStats = (applyOp op db).globalStats
          ∧ ∀ b : Nat, lookupStats (loadStatsCache (applyOp op db)).bucketStats b
              = lookupStats (applyOp op db).bucketStats b) := by
  have hacc2 := acc_applyOp op db hwf hval hacc
  have hwf2 := wf_applyOp op db hwf hval hacc
  exact ⟨⟨hacc2, hwf2⟩, loadStatsCache_noop _ hwf2 hacc2⟩

/-- Concrete run of C5: bulk overwrite-resolution on the one-conflict-row
queue keeps the ledger accurate and makes the rebuild a no-op. -/
theorem ledger_fidelity_witness :
    (LedgerAccurate (applyOp (StoreOp.resolveAll Action.overwrite 9) conflictDB)
        ∧ WF (applyOp (StoreOp.resolveAll Action.overwrite 9) conflictDB))
      ∧ ((loadStatsCache (applyOp (StoreOp.resolveAll Action.overwrite 9) conflictDB)).globalStats
            = (applyOp (StoreOp.resolveAll Action.overwrite 9) conflictDB).globalStats
          ∧ ∀ b : Nat,
              lookupStats
                  (loadStatsCache (applyOp (StoreOp.resolveAll Action.overwrite 9) conflictDB)).bucketStats b
                = lookupStats (applyOp (StoreOp.resolveAll Action.overwrite 9) conflictDB).bucketStats b) :=
  ledger_fidelity (StoreOp.resolveAll Action.overwrite 9) conflictDB
    (by decide) True.intro (by decide)

end FileCopy
